import Mathlib

/-!
Verification of the first-order resolution prover core
(`logic_ast.py` + `resolution_engine.py`).

The Python source is shallowly embedded.  Conventions of the embedding:

* Python strings are `String` (a list of Unicode code points, as in Python 3);
  character-level processing works on `String.data : List Char`.
* The source's identifier character class `[A-Za-zА-Яа-яёЁ0-9_]` is modelled
  by `isIdentChar`.  The `\w` class of the `re` module (used by the resolver's
  regexes) matches all Unicode word characters; the formulas this program
  manipulates only ever contain word characters from the identifier alphabet,
  so `\w` is modelled by the same `isIdentChar`.  Likewise `.` in a regex is
  modelled as "any character" (the inputs contain no newline).
* Python `set`s are unordered; they are modelled as insertion-ordered
  duplicate-free lists (`pyDedup`), a deterministic refinement of the
  source's behaviour.  Python `dict`s (3.7+) preserve insertion order and
  are modelled as association lists with in-place overwrite (`dictSet`).
* Functions whose Python recursion is not structural take an explicit fuel
  argument; the public wrappers supply fuel that covers the recursion depth
  (`parse_formula`, `move_nots_inwards`, `skolemize`,
  `distribute_or_over_and`).  The saturation loop of `dumb_resolution` is
  unbounded in the source, so the embedded `dumb_resolution` takes the sweep
  bound as an argument and returns `none` when it is reached.
* The AST is split into `Term` (arguments) and `Node` (formulas), following
  the data model of the code: `Predicate` arguments produced by the parser
  and by Skolemization are always terms (`Var`/`Const`/`Function`), never
  formulas.
-/

namespace NSR

/-! ### Character classes and Python string primitives -/

/-- ASCII uppercase letter. -/
def isAsciiUpper (c : Char) : Bool := 'A' ≤ c && c ≤ 'Z'

/-- ASCII lowercase letter. -/
def isAsciiLower (c : Char) : Bool := 'a' ≤ c && c ≤ 'z'

/-- Cyrillic uppercase letter (А-Я and Ё), the uppercase half of the
`А-Яа-яёЁ` ranges in the source's regexes. -/
def isCyrUpper (c : Char) : Bool :=
  (0x410 ≤ c.toNat && c.toNat ≤ 0x42F) || c.toNat == 0x401

/-- Cyrillic lowercase letter (а-я and ё). -/
def isCyrLower (c : Char) : Bool :=
  (0x430 ≤ c.toNat && c.toNat ≤ 0x44F) || c.toNat == 0x451

/-- Uppercase (cased) character of the identifier alphabet; models
`str.isupper` on a single character of that alphabet. -/
def isUpperCh (c : Char) : Bool := isAsciiUpper c || isCyrUpper c

/-- Lowercase (cased) character of the identifier alphabet. -/
def isLowerCh (c : Char) : Bool := isAsciiLower c || isCyrLower c

/-- Cased character: one that has an upper/lower distinction. -/
def isCasedCh (c : Char) : Bool := isUpperCh c || isLowerCh c

/-- ASCII digit. -/
def isDigitCh (c : Char) : Bool := '0' ≤ c && c ≤ '9'

/-- The identifier class `[A-Za-zА-Яа-яёЁ0-9_]` of the source. -/
def isIdentChar (c : Char) : Bool :=
  isAsciiUpper c || isAsciiLower c || isCyrUpper c || isCyrLower c ||
    isDigitCh c || c == '_'

/-- ASCII identifier class `[A-Za-z0-9_]`, used by the quantifier regexes. -/
def isQuantIdent (c : Char) : Bool :=
  isAsciiUpper c || isAsciiLower c || isDigitCh c || c == '_'

/-- Whitespace as recognised by Python's `str.strip`. -/
def isPySpace (c : Char) : Bool :=
  c == ' ' || c == '\t' || c == '\n' || c == '\x0b' || c == '\x0c' || c == '\r'

/-- Python `str.strip()`: remove leading and trailing whitespace. -/
def pyStrip (s : List Char) : List Char :=
  ((s.dropWhile isPySpace).reverse.dropWhile isPySpace).reverse

/-- Python `str.islower()`: at least one cased character, and every cased
character is lowercase. -/
def pyIsLower (s : String) : Bool :=
  s.data.any isCasedCh && s.data.all (fun c => !isCasedCh c || isLowerCh c)

/-- `as` is a prefix of `bs` (used to model `str.startswith` and substring
search). -/
def leadsWith : List Char → List Char → Bool
  | [], _ => true
  | _ :: _, [] => false
  | a :: as, b :: bs => a == b && leadsWith as bs

/-- Python `needle in hay` on strings: substring containment. -/
def pyContainsSub (needle hay : String) : Bool :=
  (List.range (hay.data.length + 1)).any
    (fun i => leadsWith needle.data (hay.data.drop i))

/-- The literal starts with the negation glyph (`lit.startswith('¬')`). -/
def startsNeg (l : String) : Bool := l.data.head? == some '¬'

/-! ### Python splitting loops -/

/-- Depth update of the source's scanning loops: `(` increments, `)`
decrements (the counter is an `int` and may go negative). -/
def depthStep (d : Int) (c : Char) : Int :=
  if c = '(' then d + 1 else if c = ')' then d - 1 else d

/-- The depth-zero split loop used by `parse_formula` for `→`, `∨`, `∧` and
by `parse_atom` for `,`: traverse the string keeping a parenthesis depth,
and cut at every occurrence of `sep` whose (updated) depth is zero.  Returns
all pieces, including a final (possibly empty) piece; the source's loop
accumulates into `parts`/`curr`, which yields exactly these pieces. -/
def splitTop (sep : Char) : Int → List Char → List (List Char)
  | _, [] => [[]]
  | d, c :: cs =>
    let d' := depthStep d c
    if c = sep ∧ d' = 0 then [] :: splitTop sep d' cs
    else
      match splitTop sep d' cs with
      | p :: ps => (c :: p) :: ps
      | [] => [[c]]

/-- Flat split on every occurrence of `sep` (Python `str.split(sep)`,
no depth bookkeeping); `pySplitAll sep "" = [""]` as in Python. -/
def pySplitAll (sep : Char) : List Char → List (List Char)
  | [] => [[]]
  | c :: cs =>
    if c = sep then [] :: pySplitAll sep cs
    else
      match pySplitAll sep cs with
      | p :: ps => (c :: p) :: ps
      | [] => [[c]]

/-! ### Python value reprs (for the engine's f-string log lines) -/

/-- Python `repr` of a string value; the strings this program logs never
contain quotes or backslashes, so `repr` just wraps in single quotes. -/
def pyReprStr (s : String) : String := "'" ++ s ++ "'"

/-- Python `str` of a list of strings, e.g. `['¬Human(x)', 'Mortal(x)']`. -/
def pyReprList (xs : List String) : String :=
  "[" ++ String.intercalate ", " (xs.map pyReprStr) ++ "]"

/-- Python `str` of a tuple of strings; a one-element tuple prints with a
trailing comma: `('Human(Socrates)',)`. -/
def pyReprTuple (xs : List String) : String :=
  match xs with
  | [x] => "(" ++ pyReprStr x ++ ",)"
  | _ => "(" ++ String.intercalate ", " (xs.map pyReprStr) ++ ")"

/-- Python `str` of a dict of strings (insertion order), e.g.
`\x7b'x': 'Socrates'\x7d`. -/
def pyReprDict (d : List (String × String)) : String :=
  "\x7b" ++
    String.intercalate ", "
      (d.map (fun kv => pyReprStr kv.1 ++ ": " ++ pyReprStr kv.2)) ++
  "\x7d"

/-! ### Python set / dict models -/

/-- Helper of `pyDedup`: drop elements already seen. -/
def pyDedupGo {α : Type} [DecidableEq α] (seen : List α) : List α → List α
  | [] => []
  | x :: xs =>
    if x ∈ seen then pyDedupGo seen xs else x :: pyDedupGo (seen ++ [x]) xs

/-- Insertion-ordered model of a Python `set` built from a list: keep the
first occurrence of each element. -/
def pyDedup {α : Type} [DecidableEq α] (l : List α) : List α :=
  pyDedupGo [] l

/-- Set union `xs | ys` keeping the insertion order of the model. -/
def pyUnion {α : Type} [DecidableEq α] (xs ys : List α) : List α :=
  xs ++ ys.filter (fun y => y ∉ xs)

/-- `d[key] = val` on the association-list model of a Python dict:
overwrite in place if the key exists, append otherwise. -/
def dictSet (d : List (String × String)) (key val : String) :
    List (String × String) :=
  if d.any (fun kv => kv.1 = key) then
    d.map (fun kv => if kv.1 = key then (key, val) else kv)
  else d ++ [(key, val)]

/-- `d.get(key, key)` of a Python dict. -/
def dictGet (d : List (String × String)) (key : String) : String :=
  match d.find? (fun kv => kv.1 = key) with
  | some kv => kv.2
  | none => key

/-! ### The AST (`logic_ast.py`, classes `Var` … `Exists`) -/

/-- Terms: `Var`, `Const`, `Function` of `logic_ast.py`. -/
inductive Term where
  | Var (name : String)
  | Const (name : String)
  | Function (name : String) (args : List Term)

/-- Formulas: `Predicate`, `Not`, `And`, `Or`, `Implies`, `ForAll`,
`Exists` of `logic_ast.py`.  `And`/`Or` are n-ary as in the source. -/
inductive Node where
  | Predicate (name : String) (args : List Term)
  | Not (child : Node)
  | And (children : List Node)
  | Or (children : List Node)
  | Implies (l r : Node)
  | ForAll (v : String) (body : Node)
  | Exists (v : String) (body : Node)

/-! ### `__repr__` of the AST classes -/

mutual
/-- `Term.__repr__`: `Var`/`Const` print their name; `Function` prints
`name(arg,…)` (or bare `name` when it has no arguments). -/
def reprT : Term → String
  | Term.Var n => n
  | Term.Const n => n
  | Term.Function n args =>
    match args with
    | [] => n
    | _ => n ++ "(" ++ String.intercalate "," (reprTL args) ++ ")"
def reprTL : List Term → List String
  | [] => []
  | t :: ts => reprT t :: reprTL ts
end

mutual
/-- `Node.__repr__` of each formula class, exactly as in the source
(`Predicate` always prints its parentheses; `And`/`Or` join with
`" ∧ "`/`" ∨ "` inside parentheses; quantifiers print `(∀x body)`). -/
def reprN : Node → String
  | Node.Predicate n args =>
    n ++ "(" ++ String.intercalate "," (reprTL args) ++ ")"
  | Node.Not c => "¬" ++ reprN c
  | Node.And cs => "(" ++ String.intercalate " ∧ " (reprNL cs) ++ ")"
  | Node.Or cs => "(" ++ String.intercalate " ∨ " (reprNL cs) ++ ")"
  | Node.Implies l r => "(" ++ reprN l ++ " → " ++ reprN r ++ ")"
  | Node.ForAll v b => "(∀" ++ v ++ " " ++ reprN b ++ ")"
  | Node.Exists v b => "(∃" ++ v ++ " " ++ reprN b ++ ")"
def reprNL : List Node → List String
  | [] => []
  | c :: cs => reprN c :: reprNL cs
end

/-! ### Regex matches used by the parser and the resolver

The source uses three anchored-at-the-start regexes:

* `^([A-Za-zА-Яа-яёЁ0-9_]+)\((.*)\)$`   (`parse_atom`) — fully anchored;
* `∀([A-Za-z0-9_]+)\((.+)\)$` / `∃…`    (quantifiers) — anchored at the end;
* `(¬?)(\w+)\((.*)\)`                   (the resolver) — not anchored at the
  end, so trailing characters after the last `)` are ignored.

In each, the name group is a maximal run of word characters (backtracking
cannot help, since shortening the run leaves a word character where `(` is
required), and the greedy `(.*)`/`(.+)` followed by `\)` captures everything
up to the *last* `)` of the remaining text. -/

/-- Split `r` at the last `')'`: `some content` with `r = content ++ ')' ::
junk` where `junk` has no `')'`; `none` if `r` has no `')'`. -/
def upToLastParen (r : List Char) : Option (List Char) :=
  match r.reverse.dropWhile (fun c => c ≠ ')') with
  | [] => none
  | _ :: revContent => some revContent.reverse

/-- The resolver's `(\w+)\((.*)\)` match (no `¬` group, end not anchored):
returns the predicate name and the text between the first `(` and the last
`)`. -/
def coreMatch (s : List Char) : Option (List Char × List Char) :=
  let name := s.takeWhile isIdentChar
  let rest := s.dropWhile isIdentChar
  if name.isEmpty then none
  else
    match rest with
    | '(' :: r => (upToLastParen r).map (fun content => (name, content))
    | _ => none

/-- The resolver's `(¬?)(\w+)\((.*)\)` match: optional leading `¬`, then as
`coreMatch`.  (If the `¬` is present but no word character follows,
backtracking on `(¬?)` cannot succeed either, since `¬` is not a word
character.) -/
def litMatch (s : List Char) : Option (Bool × List Char × List Char) :=
  match s with
  | '¬' :: r => (coreMatch r).map (fun na => (true, na.1, na.2))
  | _ => (coreMatch s).map (fun na => (false, na.1, na.2))

/-- `parse_atom`'s fully anchored `^([A-Za-zА-Яа-яёЁ0-9_]+)\((.*)\)$`:
the whole string must be `name(content)` with the final character `)`. -/
def atomMatch (s : List Char) : Option (List Char × List Char) :=
  let name := s.takeWhile isIdentChar
  let rest := s.dropWhile isIdentChar
  if name.isEmpty then none
  else
    match rest with
    | '(' :: r =>
      match r.getLast? with
      | some ')' => some (name, r.dropLast)
      | _ => none
    | _ => none

/-- The quantifier regex `∀([A-Za-z0-9_]+)\((.+)\)$` (resp. `∃…`), applied
to a string already known to start with the quantifier glyph: ASCII
identifier, `(`, a nonempty body, and the final character must be `)`. -/
def quantMatch (q : Char) (s : List Char) : Option (List Char × List Char) :=
  match s with
  | c :: rest =>
    if c = q then
      let name := rest.takeWhile isQuantIdent
      let rest2 := rest.dropWhile isQuantIdent
      if name.isEmpty then none
      else
        match rest2 with
        | '(' :: r =>
          match r.getLast? with
          | some ')' => if r.length ≥ 2 then some (name, r.dropLast) else none
          | _ => none
        | _ => none
    else none
  | [] => none

/-! ### `parse_atom` and `parse_formula` -/

/-- Classify one argument token: after stripping non-identifier characters,
an uppercase-initial token is a `Const`, anything else a `Var`; empty tokens
are dropped (`parse_atom`'s argument loop). -/
def classifyArgs : List (List Char) → List Term
  | [] => []
  | p :: ps =>
    let p' := p.filter isIdentChar
    match p' with
    | [] => classifyArgs ps
    | c :: _ =>
      (if isUpperCh c then Term.Const (String.mk p') else Term.Var (String.mk p')) ::
        classifyArgs ps

/-- The argument split of `parse_atom`: split on depth-zero commas; the
final accumulated piece is appended only if nonempty. -/
def splitArgs (rest : List Char) : List (List Char) :=
  let ps := splitTop ',' 0 rest
  if ps.getLast? = some [] then ps.dropLast else ps

/-- `parse_atom` of `logic_ast.py`: match `Name(args)`; on failure strip
parentheses and non-identifier characters and return a nullary predicate. -/
def parse_atom (s : List Char) : Node :=
  let a := pyStrip s
  match atomMatch a with
  | some (name, rest) =>
    if pyStrip rest = [] then Node.Predicate (String.mk name) []
    else Node.Predicate (String.mk name) (classifyArgs (splitArgs rest))
  | none => Node.Predicate (String.mk (a.filter isIdentChar)) []

/-- Scan for the outer-parenthesis strip: `True` iff the depth never
returns to zero strictly before the final character (the source checks
`depth == 0 and i < len(s)-1`; the depth after the final character is not
checked). -/
def balScan (d : Int) : List Char → Bool
  | [] => true
  | [_] => true
  | c :: cs => let d' := depthStep d c; if d' = 0 then false else balScan d' cs

/-- Outermost-parenthesis stripping of `parse_formula`: if the string starts
with `(`, ends with `)`, and the scan finds no intermediate return to depth
zero, replace `s` by `s[1:-1]`. -/
def stripOuter (s : List Char) : List Char :=
  match s with
  | '(' :: _ =>
    if s.getLast? = some ')' ∧ balScan 0 s then (s.drop 1).dropLast else s
  | _ => s

/-- The string after the first occurrence of `sep` (second component of
Python's `s.split(sep, 1)`). -/
def afterFirst (sep : Char) (s : List Char) : List Char :=
  (s.dropWhile (fun c => c ≠ sep)).drop 1

/-- Python `sep.join(parts)` for a one-character separator. -/
def joinWith (sep : Char) : List (List Char) → List Char
  | [] => []
  | [p] => p
  | p :: ps => p ++ sep :: joinWith sep ps

/-- One step of `parse_formula`, with `rec` standing for the recursive
call.  The branch order is the source's: strip spaces, strip outer
parentheses, quantifiers, `→` (leftmost depth-zero split, or, when every
`→` is nested, a plain `split('→', 1)` fallback), n-ary `∨`, n-ary `∧`,
`¬`, atom. -/
def parseStep (rec : List Char → Node) (s0 : List Char) : Node :=
  let s1 := s0.filter (fun c => c ≠ ' ')
  let s := stripOuter s1
  match quantMatch '∀' s with
  | some (v, body) => Node.ForAll (String.mk v) (rec body)
  | none =>
  match quantMatch '∃' s with
  | some (v, body) => Node.Exists (String.mk v) (rec body)
  | none =>
    let notOrAtom : Node :=
      match s with
      | '¬' :: rest => Node.Not (rec rest)
      | _ => parse_atom s
    let andBranch : Node :=
      if '∧' ∈ s then
        match splitTop '∧' 0 s with
        | p :: q :: rest => Node.And ((p :: q :: rest).map rec)
        | _ => notOrAtom
      else notOrAtom
    let orBranch : Node :=
      if '∨' ∈ s then
        match splitTop '∨' 0 s with
        | p :: q :: rest => Node.Or ((p :: q :: rest).map rec)
        | _ => andBranch
      else andBranch
    if '→' ∈ s then
      match splitTop '→' 0 s with
      | p :: q :: rest =>
        Node.Implies (rec p) (rec (joinWith '→' (q :: rest)))
      | _ =>
        Node.Implies (rec (s.takeWhile (fun c => c ≠ '→')))
          (rec (afterFirst '→' s))
    else orBranch

/-- `parse_formula` with explicit fuel (the source recurses on strict
substrings, so `s.length + 1` fuel — supplied by the wrapper — always
suffices; the fuel-0 branch is unreachable from the wrapper). -/
def parseF : Nat → List Char → Node
  | 0, s => parse_atom s
  | n + 1, s => parseStep (parseF n) s

/-- `parse_formula` of `logic_ast.py`. -/
def parse_formula (s : String) : Node := parseF (s.data.length + 1) s.data

/-! ### `eliminate_implications` -/

mutual
/-- `eliminate_implications`: rewrite `A → B` to `¬A ∨ B`, recursing
structurally through the other constructors (`Predicate` is returned
unchanged by the `else` branch). -/
def eliminate_implications : Node → Node
  | Node.Implies l r =>
    Node.Or [Node.Not (eliminate_implications l), eliminate_implications r]
  | Node.And cs => Node.And (elimImpL cs)
  | Node.Or cs => Node.Or (elimImpL cs)
  | Node.Not c => Node.Not (eliminate_implications c)
  | Node.ForAll v b => Node.ForAll v (eliminate_implications b)
  | Node.Exists v b => Node.Exists v (eliminate_implications b)
  | f => f
def elimImpL : List Node → List Node
  | [] => []
  | c :: cs => eliminate_implications c :: elimImpL cs
end

/-! ### `move_nots_inwards` -/

/-- `move_nots_inwards` with explicit fuel: the `¬(A∧B)` case recurses on
`Not c` for a child `c`, which is not a structural descent.  Every
recursive call strictly decreases `fsize` (declared below with the
Skolemization helpers) of the argument, so the wrapper's fuel `fsize f + 1`
covers the recursion and the fuel-0 branch is unreachable from the
wrapper. -/
def mniF : Nat → Node → Node
  | 0, f => f
  | n + 1, f =>
    match f with
    | Node.Not c =>
      match c with
      | Node.Not c' => mniF n c'
      | Node.And cs => Node.Or (cs.map (fun x => mniF n (Node.Not x)))
      | Node.Or cs => Node.And (cs.map (fun x => mniF n (Node.Not x)))
      | Node.ForAll v b => Node.Exists v (mniF n (Node.Not b))
      | Node.Exists v b => Node.ForAll v (mniF n (Node.Not b))
      | c' => Node.Not (mniF n c')
    | Node.And cs => Node.And (cs.map (mniF n))
    | Node.Or cs => Node.Or (cs.map (mniF n))
    | Node.ForAll v b => Node.ForAll v (mniF n b)
    | Node.Exists v b => Node.Exists v (mniF n b)
    | f' => f'

/-! ### `prenex_normal_form` -/

/-- Quantifier kind collected by the prenex `pull` walk. -/
inductive QK where
  | all
  | ex
  deriving DecidableEq

mutual
/-- The `pull` walk of `prenex_normal_form`: return the quantifier-free
shape and the list of quantifiers in collection order (children first for
`And`/`Or`, the node's own quantifier appended after its body's). -/
def pull : Node → Node × List (QK × String)
  | Node.And cs => let r := pullL cs; (Node.And r.1, r.2)
  | Node.Or cs => let r := pullL cs; (Node.Or r.1, r.2)
  | Node.ForAll v b => let r := pull b; (r.1, r.2 ++ [(QK.all, v)])
  | Node.Exists v b => let r := pull b; (r.1, r.2 ++ [(QK.ex, v)])
  | f => (f, [])
def pullL : List Node → List Node × List (QK × String)
  | [] => ([], [])
  | c :: cs =>
    let r := pull c
    let rs := pullL cs
    (r.1 :: rs.1, r.2 ++ rs.2)
end

/-- `prenex_normal_form`: wrap the pulled core with the collected
quantifiers in reverse collection order. -/
def prenex_normal_form (f : Node) : Node :=
  let r := pull f
  r.2.reverse.foldl
    (fun core qv =>
      match qv.1 with
      | QK.all => Node.ForAll qv.2 core
      | QK.ex => Node.Exists qv.2 core)
    r.1

/-! ### `substitute` and `skolemize` -/

mutual
/-- Substitution inside terms (the `Var`/`Const`/`Function` cases of the
source's `substitute`). -/
def substT (v : String) (t : Term) : Term → Term
  | Term.Var n => if n = v then t else Term.Var n
  | Term.Const n => Term.Const n
  | Term.Function n args => Term.Function n (substTL v t args)
def substTL (v : String) (t : Term) : List Term → List Term
  | [] => []
  | a :: as => substT v t a :: substTL v t as
end

mutual
/-- `substitute(formula, var, term)` on formulas: replace the variable in
predicate arguments, recurse through connectives, stop at a quantifier that
rebinds the same name.  As in the source, an `Implies` node falls through
to the `else` branch and is returned unchanged. -/
def substitute (v : String) (t : Term) : Node → Node
  | Node.Predicate n args => Node.Predicate n (substTL v t args)
  | Node.And cs => Node.And (substituteL v t cs)
  | Node.Or cs => Node.Or (substituteL v t cs)
  | Node.Not c => Node.Not (substitute v t c)
  | Node.ForAll u b =>
    if u = v then Node.ForAll u b else Node.ForAll u (substitute v t b)
  | Node.Exists u b =>
    if u = v then Node.Exists u b else Node.Exists u (substitute v t b)
  | f => f
def substituteL (v : String) (t : Term) : List Node → List Node
  | [] => []
  | c :: cs => substitute v t c :: substituteL v t cs
end

mutual
/-- Count of the formula-level nodes that `skolemize` recurses through
(`Predicate` and `Implies` are leaves for it).  `substitute` preserves this
count, which makes it the fuel measure for `skolemizeF`. -/
def fsize : Node → Nat
  | Node.Predicate _ _ => 0
  | Node.Implies _ _ => 0
  | Node.Not c => fsize c + 1
  | Node.And cs => fsizeL cs + 1
  | Node.Or cs => fsizeL cs + 1
  | Node.ForAll _ b => fsize b + 1
  | Node.Exists _ b => fsize b + 1
def fsizeL : List Node → Nat
  | [] => 0
  | c :: cs => fsize c + fsizeL cs + 1
end

/-- `move_nots_inwards` of `logic_ast.py` (wrapper supplying sufficient
fuel: every recursive call of `mniF` strictly decreases `fsize`). -/
def move_nots_inwards (f : Node) : Node := mniF (fsize f + 1) f

/-- Thread a state left-to-right through a list of children, collecting the
results (the source's list comprehensions over the global Skolem counter). -/
def threadMap {σ : Type} (g : Node → σ → Node × σ) : List Node → σ →
    List Node × σ
  | [], st => ([], st)
  | c :: cs, st =>
    let rc := g c st
    let rcs := threadMap g cs rc.2
    (rc.1 :: rcs.1, rcs.2)

/-- `skolemize(formula, env)` with the global `itertools.count(1)` counter
made explicit: the second component is the next counter value.  Fuel: the
`Exists` case recurses on `substitute(body, v, replacement)`, which is not
structural; `fsize` is preserved by `substitute`, so `fsize f + 1` fuel
(supplied by the wrapper) covers the recursion. -/
def skolemizeF : Nat → Node → List String → Nat → Node × Nat
  | 0, f, _, cnt => (f, cnt)
  | n + 1, f, env, cnt =>
    match f with
    | Node.ForAll v b =>
      let r := skolemizeF n b (env ++ [v]) cnt
      (Node.ForAll v r.1, r.2)
    | Node.Exists v b =>
      let name := "sk" ++ toString cnt
      let repl :=
        if env.isEmpty then Term.Const name
        else Term.Function name (env.map Term.Var)
      skolemizeF n (substitute v repl b) env (cnt + 1)
    | Node.And cs =>
      let r := threadMap (fun c => skolemizeF n c env) cs cnt
      (Node.And r.1, r.2)
    | Node.Or cs =>
      let r := threadMap (fun c => skolemizeF n c env) cs cnt
      (Node.Or r.1, r.2)
    | Node.Not c =>
      let r := skolemizeF n c env cnt
      (Node.Not r.1, r.2)
    | f' => (f', cnt)

/-- `skolemize` of `logic_ast.py` (wrapper supplying sufficient fuel). -/
def skolemize (f : Node) (env : List String) (cnt : Nat) : Node × Nat :=
  skolemizeF (fsize f + 1) f env cnt

/-! ### `distribute_or_over_and` and `to_cnf` -/

/-- Find the first `And` among a list of children: returns the children
before it, its own children, and the children after it. -/
def findAnd : List Node → Option (List Node × List Node × List Node)
  | [] => none
  | c :: cs =>
    match c with
    | Node.And ds => some ([], ds, cs)
    | _ => (findAnd cs).map (fun r => (c :: r.1, r.2.1, r.2.2))

/-- Map a fallible transform over a list of children, failing if any child
fails (fuel propagation for `distF`). -/
def distOptList (g : Node → Option Node) : List Node → Option (List Node)
  | [] => some []
  | c :: cs =>
    match g c with
    | none => none
    | some c' => (distOptList g cs).map (fun rest => c' :: rest)

/-- `distribute_or_over_and` with explicit fuel: the `Or` case recurses on
the freshly built `Or([conj_part] + rest)`, which is not structural, so the
embedding returns `none` when the fuel runs out (the source's recursion
always terminates on the closed formulas this development evaluates, and
the wrapper's fuel is ample for them). -/
def distF : Nat → Node → Option Node
  | 0, _ => none
  | n + 1, f =>
    match f with
    | Node.Predicate _ _ => some f
    | Node.Not _ => some f
    | Node.And cs => (distOptList (distF n) cs).map Node.And
    | Node.Or cs =>
      match distOptList (distF n) cs with
      | none => none
      | some children =>
        match findAnd children with
        | some (pre, ds, post) =>
          (distOptList (fun d => distF n (Node.Or (d :: (pre ++ post)))) ds).map
            Node.And
        | none => some (Node.Or children)
    | _ => some f

/-- `distribute_or_over_and` of `logic_ast.py`. -/
def distribute_or_over_and (f : Node) : Option Node :=
  distF ((fsize f + 2) * 2 ^ (fsize f + 2)) f

/-- `to_cnf` drops every leading `ForAll` wrapper. -/
def dropForalls : Node → Node
  | Node.ForAll _ b => dropForalls b
  | f => f

mutual
/-- `flatten_and`: flatten nested `And`s into a flat list of clause
shapes. -/
def flatten_and : Node → List Node
  | Node.And cs => flattenAndL cs
  | f => [f]
def flattenAndL : List Node → List Node
  | [] => []
  | c :: cs => flatten_and c ++ flattenAndL cs
end

mutual
/-- `extract_literals`: collect the literal strings of a disjunction;
an `And` nested inside raises (`Exception("And внутри Or — ошибка КНФ")`),
modelled as `Except.error`. -/
def extract_literals : Node → Except String (List String)
  | Node.Or cs => extractLitsL cs
  | Node.And _ => Except.error "And внутри Or — ошибка КНФ"
  | e => Except.ok [reprN e]
def extractLitsL : List Node → Except String (List String)
  | [] => Except.ok []
  | c :: cs =>
    match extract_literals c with
    | Except.error e => Except.error e
    | Except.ok ls =>
      match extractLitsL cs with
      | Except.error e => Except.error e
      | Except.ok ls' => Except.ok (ls ++ ls')
end

/-- Run `extract_literals` over every flattened clause shape. -/
def extractAll : List Node → Except String (List (List String))
  | [] => Except.ok []
  | c :: cs =>
    match extract_literals c with
    | Except.error e => Except.error e
    | Except.ok ls =>
      match extractAll cs with
      | Except.error e => Except.error e
      | Except.ok rest => Except.ok (ls :: rest)

/-- `to_cnf` of `logic_ast.py`: drop leading universals, distribute `∨`
over `∧`, flatten the conjunction and extract each clause's literal
strings.  `Except.error` covers the source's CNF-structure exception (and
the fuel artifact of `distF`). -/
def to_cnf (f : Node) : Except String (List (List String)) :=
  let g := dropForalls f
  match distribute_or_over_and g with
  | none => Except.error "distribute: fuel exhausted"
  | some d => extractAll (flatten_and d)

/-! ### The resolution engine (`resolution_engine.py`) -/

/-- A clause: the source stores clauses as tuples of literal strings. -/
abbrev Clause := List String

/-- The argument-token list of a matched literal: `m.group(2).split(',')`
with each token stripped. -/
def litTokens (args : List Char) : List String :=
  (pySplitAll ',' args).map (fun t => String.mk (pyStrip t))

/-- Build the substitution of `unify_literals` from the zipped argument
tokens: equal tokens are skipped, an `islower` token is bound to the
opposite one (left side preferred), two differing non-lowercase tokens
abort the unification. -/
def unifyArgs : List (String × String) → List (String × String) →
    Option (List (String × String))
  | [], σ => some σ
  | ab :: rest, σ =>
    if ab.1 = ab.2 then unifyArgs rest σ
    else if pyIsLower ab.1 then unifyArgs rest (dictSet σ ab.1 ab.2)
    else if pyIsLower ab.2 then unifyArgs rest (dictSet σ ab.2 ab.1)
    else none

/-- `LogicResolutionEngine.unify_literals`: strip one leading `¬` from each
literal, match `(\w+)\((.*)\)` on both, require equal predicate names and
arities, and build the token-to-token substitution. -/
def unify_literals (lit1 lit2 : String) : Option (List (String × String)) :=
  let core1 := if startsNeg lit1 then lit1.data.drop 1 else lit1.data
  let core2 := if startsNeg lit2 then lit2.data.drop 1 else lit2.data
  match coreMatch core1, coreMatch core2 with
  | some (n1, a1), some (n2, a2) =>
    if n1 ≠ n2 then none
    else
      let args1 := litTokens a1
      let args2 := litTokens a2
      if args1.length ≠ args2.length then none
      else unifyArgs (args1.zip args2) []
  | _, _ => none

/-- Serialization of `apply_subst`'s f-string
`f"{m.group(1)}{pred}({','.join(new_args)})"`, written at the
code-point level: optional `¬`, predicate name, and the comma-joined
arguments in parentheses. -/
def mkLitStr (neg : Bool) (pred : List Char) (args : List String) : String :=
  String.mk ((if neg then ['¬'] else []) ++ pred ++ '(' ::
    (joinWith ',' (args.map String.data) ++ [')']))

/-- The resolver's `apply_subst`: match `(¬?)(\w+)\((.*)\)`; on failure
return the literal unchanged; otherwise substitute each stripped argument
token through the dict and re-serialize. -/
def apply_subst (σ : List (String × String)) (lit : String) : String :=
  match litMatch lit.data with
  | none => lit
  | some (neg, pred, args) =>
    mkLitStr neg pred
      ((pySplitAll ',' args).map (fun t => dictGet σ (String.mk (pyStrip t))))

/-- String comparison `a < b` by code points (Python's `str` ordering,
used by `sorted`). -/
def strLtB : List Char → List Char → Bool
  | [], [] => false
  | [], _ :: _ => true
  | _ :: _, [] => false
  | a :: as, b :: bs =>
    if a.toNat < b.toNat then true
    else if b.toNat < a.toNat then false
    else strLtB as bs

/-- Insert into a sorted list (`pySorted`'s helper). -/
def insertSorted (x : String) : List String → List String
  | [] => [x]
  | y :: ys =>
    if strLtB y.data x.data then y :: insertSorted x ys else x :: y :: ys

/-- Python `sorted` on a list of strings. -/
def pySorted (l : List String) : List String := l.foldr insertSorted []

/-- State carried through one saturation sweep: the clause set (live —
clauses added mid-sweep dedup against it), the clauses added this sweep
(`new_clauses`), and the derivation log. -/
structure SweepSt where
  setC : List Clause
  newC : List Clause
  log : List String

/-- One literal pair `(lit1, lit2)` of a clause pair `(a, b)`: the body of
the innermost loop of `dumb_resolution`.  `Except.error` carries the final
log of the early `return True` on the empty clause. -/
def tryPair (a b : Clause) (lit1 lit2 : String) (st : SweepSt) :
    Except (List String) SweepSt :=
  if (startsNeg lit1).xor (startsNeg lit2) then
    match unify_literals lit1 lit2 with
    | none => Except.ok st
    | some σ =>
      let log1 := st.log ++
        ["Унификация: " ++ lit1 ++ " <-> " ++ lit2 ++ " под " ++ pyReprDict σ]
      let kept := pyUnion ((pyDedup a).filter (fun l => l ≠ lit1))
        ((pyDedup b).filter (fun l => l ≠ lit2))
      let newLits := pyDedup
        ((kept.filter (fun l => pyStrip l.data ≠ [])).map (apply_subst σ))
      let log2 := log1 ++
        ["Резолюция: " ++ pyReprTuple a ++ " + " ++ pyReprTuple b ++ " → " ++
          (if newLits.isEmpty then "ПУСТАЯ КЛАУЗА" else pyReprList (pySorted newLits))]
      if newLits.isEmpty then
        Except.error (log2 ++ ["[ПУСТАЯ КЛАУЗА] Противоречие!"])
      else
        let nc := pySorted newLits
        if nc ∈ st.setC then Except.ok { st with log := log2 }
        else
          Except.ok
            { setC := st.setC ++ [nc], newC := st.newC ++ [nc], log := log2 }
  else Except.ok st

/-- Loop of `lit2` over the literal set of `b`. -/
def sweepLits2 (a b : Clause) (lit1 : String) :
    List String → SweepSt → Except (List String) SweepSt
  | [], st => Except.ok st
  | l2 :: rest, st =>
    match tryPair a b lit1 l2 st with
    | Except.error e => Except.error e
    | Except.ok st' => sweepLits2 a b lit1 rest st'

/-- Loop of `lit1` over the literal set of `a`. -/
def sweepLits1 (a b : Clause) (litsB : List String) :
    List String → SweepSt → Except (List String) SweepSt
  | [], st => Except.ok st
  | l1 :: rest, st =>
    match sweepLits2 a b l1 litsB st with
    | Except.error e => Except.error e
    | Except.ok st' => sweepLits1 a b litsB rest st'

/-- The pair `(a, b)`: compute the two literal sets (`set(a)`, `set(b)`)
and run the literal loops. -/
def sweepPair (a b : Clause) (st : SweepSt) : Except (List String) SweepSt :=
  sweepLits1 a b (pyDedup b) (pyDedup a) st

/-- Loop of `b` over the clauses after `a`. -/
def sweepBs (a : Clause) : List Clause → SweepSt → Except (List String) SweepSt
  | [], st => Except.ok st
  | b :: rest, st =>
    match sweepPair a b st with
    | Except.error e => Except.error e
    | Except.ok st' => sweepBs a rest st'

/-- One full sweep over all index pairs `i < j` of the working list. -/
def sweepTails : List Clause → SweepSt → Except (List String) SweepSt
  | [], st => Except.ok st
  | a :: rest, st =>
    match sweepBs a rest st with
    | Except.error e => Except.error e
    | Except.ok st' => sweepTails rest st'

/-- Resolver state between sweeps: the clause set and the ordered working
list (`clauses_list`), plus the log. -/
structure RState where
  setC : List Clause
  clausesList : List Clause
  log : List String

/-- The `while made_new` saturation loop of `dumb_resolution`, with the
sweep count as fuel (`none` = the bound was reached; the source loops
unboundedly).  An early empty clause yields `(true, log)`; a sweep that
adds nothing yields `(false, log)` after the closing log line. -/
def resLoop : Nat → RState → Option (Bool × List String)
  | 0, _ => none
  | n + 1, st =>
    match sweepTails st.clausesList ⟨st.setC, [], st.log⟩ with
    | Except.error finalLog => some (true, finalLog)
    | Except.ok sw =>
      if sw.newC.isEmpty then
        some (false, sw.log ++ ["Нет пустой клаузы — не доказано."])
      else resLoop n ⟨sw.setC, st.clausesList ++ sw.newC, sw.log⟩

/-- `LogicResolutionEngine.dumb_resolution` (with the sweep bound made
explicit): deduplicate the input clause tuples into the clause set, start
the log, and saturate. -/
def dumb_resolution (clauses : List Clause) (fuel : Nat) :
    Option (Bool × List String) :=
  let setC := pyDedup clauses
  resLoop fuel ⟨setC, setC, ["Резолюция с унификацией переменных"]⟩

/-! ### `LogicResolutionEngine.solve` -/

/-- The normalization pipeline applied by `solve` to one formula string:
parse, eliminate implications, move negations inwards, prenex, skolemize
(threading the counter), CNF. -/
def formulaClauses (f : String) (cnt : Nat) :
    Except String (List Clause × Nat) :=
  let node1 := parse_formula f
  let node2 := eliminate_implications node1
  let node3 := move_nots_inwards node2
  let node4 := prenex_normal_form node3
  let r5 := skolemize node4 [] cnt
  match to_cnf r5.1 with
  | Except.error e => Except.error e
  | Except.ok cs => Except.ok (cs, r5.2)

/-- The premise loop of `solve`: process each premise, appending its
clauses (as tuples) and one `[КНФ]` log line per clause. -/
def premiseLoop : List String → Nat → List Clause → List String →
    Except String (List Clause × List String × Nat)
  | [], cnt, acc, steps => Except.ok (acc, steps, cnt)
  | f :: fs, cnt, acc, steps =>
    match formulaClauses f cnt with
    | Except.error e => Except.error e
    | Except.ok (cs, cnt') =>
      premiseLoop fs cnt' (acc ++ cs)
        (steps ++ cs.map (fun c => "[КНФ] " ++ pyReprList c))

/-- The goal negation of `solve`: strip one leading `¬` if present,
otherwise prefix one. -/
def negGoalStr (goal : String) : String :=
  if startsNeg goal then String.mk (goal.data.drop 1) else "¬" ++ goal

/-- Outcome of the embedded `solve`: a normal result, an uncaught
exception (the CNF structure error), or the saturation bound was
reached. -/
inductive SolveOutcome where
  | ok (proven : Bool) (steps : List String)
  | exn (msg : String)
  | fuelOut
  deriving DecidableEq

/-- `proven` of a normal outcome (`false` otherwise). -/
def SolveOutcome.provenB : SolveOutcome → Bool
  | SolveOutcome.ok p _ => p
  | _ => false

/-- `steps` of a normal outcome (`[]` otherwise). -/
def SolveOutcome.stepsOf : SolveOutcome → List String
  | SolveOutcome.ok _ s => s
  | _ => []

/-- The clause database and `[КНФ]` log lines assembled by `solve` before
resolution: premise clauses in order, then the clauses of the negated
goal, with the goal lines tagged `(отрицание цели)`.  The Skolem counter
starts at 1 (a fresh `itertools.count(1)`). -/
def buildClauses (formulas : List String) (goal : String) :
    Except String (List Clause × List String) :=
  match premiseLoop formulas 1 [] [] with
  | Except.error e => Except.error e
  | Except.ok (clauses, steps, cnt) =>
    match formulaClauses (negGoalStr goal) cnt with
    | Except.error e => Except.error e
    | Except.ok (gcs, _) =>
      Except.ok (clauses ++ gcs,
        steps ++ gcs.map (fun c => "[КНФ] (отрицание цели) " ++ pyReprList c))

/-- `LogicResolutionEngine.solve` (with the saturation bound made
explicit). -/
def solve (formulas : List String) (goal : String) (fuel : Nat) :
    SolveOutcome :=
  match buildClauses formulas goal with
  | Except.error e => SolveOutcome.exn e
  | Except.ok (clauses, steps) =>
    match dumb_resolution clauses fuel with
    | none => SolveOutcome.fuelOut
    | some (result, deriv) => SolveOutcome.ok result (steps ++ deriv)

/-! ### Observation helpers and predicates used by the statements below -/

/-- The outcome is a normal return of `solve` (not an exception, not the
saturation bound). -/
def SolveOutcome.isOk : SolveOutcome → Bool
  | SolveOutcome.ok _ _ => true
  | _ => false

/-- Clause set of a completed sweep (`[]` on the early empty-clause
return). -/
def sweepOkSet (r : Except (List String) SweepSt) : List Clause :=
  match r with
  | Except.ok st => st.setC
  | Except.error _ => []

/-- Clauses newly added by a completed sweep. -/
def sweepOkNew (r : Except (List String) SweepSt) : List Clause :=
  match r with
  | Except.ok st => st.newC
  | Except.error _ => []

mutual
/-- An `Exists` node occurs somewhere in the formula. -/
def hasExists : Node → Bool
  | Node.Exists _ _ => true
  | Node.ForAll _ b => hasExists b
  | Node.Not c => hasExists c
  | Node.And cs => hasExistsL cs
  | Node.Or cs => hasExistsL cs
  | Node.Implies l r => hasExists l || hasExists r
  | Node.Predicate _ _ => false
def hasExistsL : List Node → Bool
  | [] => false
  | c :: cs => hasExists c || hasExistsL cs
end

mutual
/-- An `Implies` node occurs somewhere in the formula. -/
def hasImplies : Node → Bool
  | Node.Implies _ _ => true
  | Node.ForAll _ b => hasImplies b
  | Node.Exists _ b => hasImplies b
  | Node.Not c => hasImplies c
  | Node.And cs => hasImpliesL cs
  | Node.Or cs => hasImpliesL cs
  | Node.Predicate _ _ => false
def hasImpliesL : List Node → Bool
  | [] => false
  | c :: cs => hasImplies c || hasImpliesL cs
end

/-- A ground literal in the sense of the string resolver: if the literal
matches the `(¬?)(\w+)\((.*)\)` shape, none of its (stripped) argument
tokens is classified as a variable by `str.islower`; literals that do not
match have no argument tokens at all. -/
def groundLit (l : String) : Bool :=
  match litMatch l.data with
  | some (_, _, args) => (litTokens args).all (fun t => !pyIsLower t)
  | none => true

/-- Every literal of every clause is ground. -/
def groundClauses (cs : List Clause) : Bool :=
  cs.all (fun cl => cl.all groundLit)

/-- `k` is a depth-zero occurrence of `sep` in `s` (parenthesis depth
counted from the start of `s`, as in the splitting loops of
`parse_formula`). -/
def IsTopSep (sep : Char) (s : List Char) (k : Nat) : Prop :=
  s.get? k = some sep ∧ (s.take k).count '(' = (s.take k).count ')'

/-- Depth contribution of one character. -/
def charDiff (c : Char) : Int :=
  if c = '(' then 1 else if c = ')' then -1 else 0

/-- `IsTopSep` generalized over the starting depth `d` (for reasoning
about `splitTop`'s recursion). -/
def TopSepD (sep : Char) (s : List Char) (k : Nat) (d : Int) : Prop :=
  s.get? k = some sep ∧ d + ((s.take k).map charDiff).sum = 0

/-! ## Theorems -/

/-! ### Fuel monotonicity of the saturation loop

The source's `while made_new` loop has no bound; the embedding's `resLoop`
returns `none` when its sweep bound runs out.  Once the loop returns a
result, any larger bound returns the same result, so facts proved at a
concrete bound hold for the unbounded source loop. -/

theorem resLoop_mono : ∀ n m : Nat, n ≤ m → ∀ st r,
    resLoop n st = some r → resLoop m st = some r := by
  intro n
  induction n with
  | zero => intro m _ st r h; simp [resLoop] at h
  | succ k ih =>
    intro m hm st r h
    obtain ⟨m', rfl⟩ : ∃ m', m = m' + 1 := ⟨m - 1, by omega⟩
    rw [resLoop] at h ⊢
    cases hsw : sweepTails st.clausesList ⟨st.setC, [], st.log⟩ with
    | error e => rw [hsw] at h; exact h
    | ok sw =>
      rw [hsw] at h
      by_cases hne : sw.newC.isEmpty
      · simp only [hne, if_true] at h ⊢; exact h
      · simp only [hne, if_false] at h ⊢
        exact ih m' (by omega) _ r h

theorem solve_fuel_eq (fs : List String) (g : String) (n m : Nat)
    (hnm : n ≤ m) (h : solve fs g n ≠ SolveOutcome.fuelOut) :
    solve fs g m = solve fs g n := by
  unfold solve at h ⊢
  cases hb : buildClauses fs g with
  | error e => rfl
  | ok cs =>
    obtain ⟨clauses, steps⟩ := cs
    rw [hb] at h
    dsimp only at h ⊢
    cases hd : dumb_resolution clauses n with
    | none => rw [hd] at h; exact absurd rfl h
    | some r =>
      obtain ⟨res, deriv⟩ := r
      have hm : dumb_resolution clauses m = some (res, deriv) := by
        unfold dumb_resolution at hd ⊢
        exact resLoop_mono n m hnm _ _ hd
      rw [hm]

/-- C1: for `solve(["∀x (Human(x) → Mortal(x))", "Human(Socrates)"],
"Mortal(Socrates)")` the result is a normal return with `proven = true`;
the step log contains the clause `{¬Human(x), Mortal(x)}`, the clause
`{Human(Socrates)}` and the negated-goal clause `{¬Mortal(Socrates)}` (as
their `[КНФ]` lines), and it ends with the empty-clause marker.  The
saturation finishes during its second sweep, so any bound `≥ 2` gives the
behaviour of the source's unbounded loop. -/
theorem solve_socrates_derivation (fuel : Nat) (h : 2 ≤ fuel) :
    (solve ["∀x (Human(x) → Mortal(x))", "Human(Socrates)"]
        "Mortal(Socrates)" fuel).isOk = true ∧
    (solve ["∀x (Human(x) → Mortal(x))", "Human(Socrates)"]
        "Mortal(Socrates)" fuel).provenB = true ∧
    "[КНФ] ['¬Human(x)', 'Mortal(x)']" ∈
      (solve ["∀x (Human(x) → Mortal(x))", "Human(Socrates)"]
        "Mortal(Socrates)" fuel).stepsOf ∧
    "[КНФ] ['Human(Socrates)']" ∈
      (solve ["∀x (Human(x) → Mortal(x))", "Human(Socrates)"]
        "Mortal(Socrates)" fuel).stepsOf ∧
    "[КНФ] (отрицание цели) ['¬Mortal(Socrates)']" ∈
      (solve ["∀x (Human(x) → Mortal(x))", "Human(Socrates)"]
        "Mortal(Socrates)" fuel).stepsOf ∧
    (solve ["∀x (Human(x) → Mortal(x))", "Human(Socrates)"]
        "Mortal(Socrates)" fuel).stepsOf.getLast? =
      some "[ПУСТАЯ КЛАУЗА] Противоречие!" := by
  rw [solve_fuel_eq _ _ 2 fuel h (by decide)]
  decide

theorem solve_socrates_derivation_witness :
    2 ≤ 2 ∧
    (solve ["∀x (Human(x) → Mortal(x))", "Human(Socrates)"]
        "Mortal(Socrates)" 2).provenB = true :=
  ⟨by decide, (solve_socrates_derivation 2 (by decide)).2.1⟩

/-- C4: for `solve(["∀x (Bird(x) → Flies(x))", "Bird(Penguin)"],
"Flies(Eagle)")` the result is a normal return with `proven = false`; the
unifier rejects `Penguin` against `Eagle` (both directions), and no logged
unification binds the one to the other (no step line carries such a dict
entry). -/
theorem solve_penguins_unprovable (fuel : Nat) (h : 2 ≤ fuel) :
    (solve ["∀x (Bird(x) → Flies(x))", "Bird(Penguin)"]
        "Flies(Eagle)" fuel).isOk = true ∧
    (solve ["∀x (Bird(x) → Flies(x))", "Bird(Penguin)"]
        "Flies(Eagle)" fuel).provenB = false ∧
    unify_literals "Bird(Penguin)" "¬Bird(Eagle)" = none ∧
    unify_literals "¬Flies(Eagle)" "Flies(Penguin)" = none ∧
    (solve ["∀x (Bird(x) → Flies(x))", "Bird(Penguin)"]
        "Flies(Eagle)" fuel).stepsOf.all
      (fun step =>
        !pyContainsSub "'Penguin': 'Eagle'" step &&
        !pyContainsSub "'Eagle': 'Penguin'" step) = true := by
  rw [solve_fuel_eq _ _ 2 fuel h (by decide)]
  decide

theorem solve_penguins_unprovable_witness :
    2 ≤ 2 ∧
    (solve ["∀x (Bird(x) → Flies(x))", "Bird(Penguin)"]
        "Flies(Eagle)" 2).provenB = false :=
  ⟨by decide, (solve_penguins_unprovable 2 (by decide)).2.1⟩

/-- C2 (counterexample): for the malformed premise and goal
`"Human(Socrates"` — an atom with no closing parenthesis, the spec's own
example of a malformed formula — `solve` does *not* report
`proven = false`: the lenient parser collapses the text to the nullary
predicate `HumanSocrates()`, the negated goal resolves against the premise,
and the prover returns `proven = true`. -/
theorem solve_malformed_atom_proven_true :
    (solve ["Human(Socrates"] "Human(Socrates" 1).provenB = true := by
  decide

/-- C2 (amended): a malformed formula raises no exception and produces no
parse-error line: `solve` on the unclosed atom `"Human(Socrates"` returns
normally, and its steps are exactly the `[КНФ]` lines of the leniently
collapsed nullary predicate `HumanSocrates()` followed by the resolution
log — no line mentions any parse failure, and `proven` is computed from
the collapsed formulas (here `true`). -/
theorem solve_malformed_atom_lenient :
    solve ["Human(Socrates"] "Human(Socrates" 1 =
      SolveOutcome.ok true
        ["[КНФ] ['HumanSocrates()']",
         "[КНФ] (отрицание цели) ['¬HumanSocrates()']",
         "Резолюция с унификацией переменных",
         "Унификация: HumanSocrates() <-> ¬HumanSocrates() под \x7b\x7d",
         "Резолюция: ('HumanSocrates()',) + ('¬HumanSocrates()',) → ПУСТАЯ КЛАУЗА",
         "[ПУСТАЯ КЛАУЗА] Противоречие!"] := by
  decide

/-- C9: when the goal string already starts with `¬`, `solve` uses the goal
with that single leading `¬` removed as the "negated goal" (first
conjunct), so the clause database it assembles is the premises' clauses
together with the clauses of the un-negated goal: for `solve(["¬P(A)"],
"¬P(A)")` the database is `{(¬P(A),), (P(A),)}` and the refutation
succeeds. -/
theorem solve_negated_goal_strips :
    (∀ goal : String, startsNeg goal = true →
      negGoalStr goal = String.mk (goal.data.drop 1)) ∧
    buildClauses ["¬P(A)"] "¬P(A)" =
      Except.ok ([["¬P(A)"], ["P(A)"]],
        ["[КНФ] ['¬P(A)']", "[КНФ] (отрицание цели) ['P(A)']"]) ∧
    (solve ["¬P(A)"] "¬P(A)" 1).provenB = true := by
  refine ⟨fun goal hg => ?_, by rfl, by decide⟩
  unfold negGoalStr
  rw [hg]
  simp

theorem solve_negated_goal_strips_witness :
    startsNeg "¬P(A)" = true ∧
    negGoalStr "¬P(A)" = String.mk ("¬P(A)".data.drop 1) :=
  ⟨by decide, solve_negated_goal_strips.1 "¬P(A)" (by decide)⟩

/-- C10: Skolem symbols are spelled `skN`, which `str.islower` classifies
as lowercase, so the string unifier binds a Skolem constant like a
variable: `skolemize` turns `∃x Human(x)` into `Human(sk1)`,
`pyIsLower "sk1"` holds, and `unify_literals("P(sk1)", "¬P(Eagle)")`
succeeds with the substitution `{sk1 ↦ Eagle}` — while two uppercase
constants such as `Socrates`/`Eagle` are rejected as a clash. -/
theorem unify_skolem_constant_as_variable :
    skolemize (Node.Exists "x" (Node.Predicate "Human" [Term.Var "x"])) [] 1 =
      (Node.Predicate "Human" [Term.Const "sk1"], 2) ∧
    pyIsLower "sk1" = true ∧
    unify_literals "P(sk1)" "¬P(Eagle)" = some [("sk1", "Eagle")] ∧
    unify_literals "P(Socrates)" "¬P(Eagle)" = none :=
  ⟨rfl, by decide, by decide, by decide⟩

/-! ### The clause-set model (`pyDedup`) -/

theorem pyDedupGo_mem {α : Type} [DecidableEq α] :
    ∀ (l seen : List α) (x : α),
      x ∈ pyDedupGo seen l ↔ x ∈ l ∧ x ∉ seen := by
  intro l
  induction l with
  | nil => intro seen x; simp [pyDedupGo]
  | cons y ys ih =>
    intro seen x
    simp only [pyDedupGo]
    split
    · rename_i hy
      rw [ih, List.mem_cons]
      by_cases hxy : x = y
      · subst hxy; tauto
      · tauto
    · rename_i hy
      rw [List.mem_cons, ih]
      simp only [List.mem_append, List.mem_singleton, List.mem_cons]
      by_cases hxy : x = y
      · subst hxy; tauto
      · tauto

theorem pyDedup_mem {α : Type} [DecidableEq α] (l : List α) (x : α) :
    x ∈ pyDedup l ↔ x ∈ l := by
  rw [pyDedup, pyDedupGo_mem]
  simp

theorem pyDedupGo_nodup {α : Type} [DecidableEq α] :
    ∀ (l seen : List α), (pyDedupGo seen l).Nodup := by
  intro l
  induction l with
  | nil => intro seen; simp [pyDedupGo]
  | cons y ys ih =>
    intro seen
    simp only [pyDedupGo]
    split
    · exact ih seen
    · refine List.nodup_cons.mpr ⟨?_, ih _⟩
      intro hy
      rw [pyDedupGo_mem] at hy
      exact hy.2 (by simp)

theorem pyDedup_nodup {α : Type} [DecidableEq α] (l : List α) :
    (pyDedup l).Nodup :=
  pyDedupGo_nodup l []

/-- C6 (counterexample): `dumb_resolution` stores the input clauses as
given, *not* sorted: with the unsorted input clause `("B(K)", "A(K)")` in
the database, the resolvent of the other two clauses has the very same
literal set but canonicalizes to `("A(K)", "B(K)")`, is not recognized as
present, and grows the database (it is in `new_clauses` and both orderings
sit in the clause set after the sweep). -/
theorem dumb_resolution_unsorted_init_duplicate_growth :
    pyDedup [["B(K)", "A(K)"], ["C(K)", "B(K)"], ["¬C(K)", "A(K)"]] =
      [["B(K)", "A(K)"], ["C(K)", "B(K)"], ["¬C(K)", "A(K)"]] ∧
    pySorted ["B(K)", "A(K)"] = ["A(K)", "B(K)"] ∧
    sweepOkNew
        (sweepTails [["B(K)", "A(K)"], ["C(K)", "B(K)"], ["¬C(K)", "A(K)"]]
          ⟨[["B(K)", "A(K)"], ["C(K)", "B(K)"], ["¬C(K)", "A(K)"]], [], []⟩) =
      [["A(K)", "B(K)"]] ∧
    ["B(K)", "A(K)"] ∈
      sweepOkSet
        (sweepTails [["B(K)", "A(K)"], ["C(K)", "B(K)"], ["¬C(K)", "A(K)"]]
          ⟨[["B(K)", "A(K)"], ["C(K)", "B(K)"], ["¬C(K)", "A(K)"]], [], []⟩) ∧
    ["A(K)", "B(K)"] ∈
      sweepOkSet
        (sweepTails [["B(K)", "A(K)"], ["C(K)", "B(K)"], ["¬C(K)", "A(K)"]]
          ⟨[["B(K)", "A(K)"], ["C(K)", "B(K)"], ["¬C(K)", "A(K)"]], [], []⟩) := by
  refine ⟨by decide, by decide, by decide, by decide, by decide⟩

/-- C6 (amended): `dumb_resolution` initializes its clause database with
the input clause tuples exactly as given — duplicates are collapsed but
the literals are *not* sorted (only resolvents are canonicalized by
sorting when they are added): the initial database holds exactly the input
clauses, free of duplicates, and the saturation starts from it. -/
theorem dumb_resolution_init_as_given (cs : List Clause) :
    (∀ c : Clause, c ∈ pyDedup cs ↔ c ∈ cs) ∧
    (pyDedup cs).Nodup ∧
    ∀ fuel, dumb_resolution cs fuel =
      resLoop fuel ⟨pyDedup cs, pyDedup cs, ["Резолюция с унификацией переменных"]⟩ :=
  ⟨fun c => pyDedup_mem cs c, pyDedup_nodup cs, fun _ => rfl⟩

/-- C8 (counterexample): the literal `"()"` fails the resolver's
`(¬?)(\w+)\((.*)\)` regex; when it remains in a resolvent, the pair is
*not* skipped: `apply_subst` returns the literal unchanged and the
resolvent `("()",)` still enters the database. -/
theorem resolvent_with_unmatched_literal_enters_database :
    litMatch "()".data = none ∧
    apply_subst [("x", "A")] "()" = "()" ∧
    sweepOkNew
        (sweepTails [["()", "P(x)"], ["¬P(A)"]]
          ⟨[["()", "P(x)"], ["¬P(A)"]], [], []⟩) = [["()"]] ∧
    ["()"] ∈
      sweepOkSet
        (sweepTails [["()", "P(x)"], ["¬P(A)"]]
          ⟨[["()", "P(x)"], ["¬P(A)"]], [], []⟩) := by
  refine ⟨by decide, by decide, by decide, by decide⟩

/-- C8 (amended): whenever a remaining literal fails the regex match used
for substitution, `apply_subst` returns it unchanged (it is not dropped
and the pair is not skipped); the resolvent containing the unmodified
literal enters the database, and the search continues and terminates
normally on the demonstration input. -/
theorem apply_subst_unmatched_literal_kept :
    (∀ (σ : List (String × String)) (lit : String),
      litMatch lit.data = none → apply_subst σ lit = lit) ∧
    (dumb_resolution [["()", "P(x)"], ["¬P(A)"]] 2).isSome = true ∧
    ["()"] ∈
      sweepOkSet
        (sweepTails [["()", "P(x)"], ["¬P(A)"]]
          ⟨[["()", "P(x)"], ["¬P(A)"]], [], []⟩) := by
  refine ⟨fun σ lit h => ?_, by decide, by decide⟩
  unfold apply_subst
  rw [h]

theorem apply_subst_unmatched_literal_kept_witness :
    litMatch "()".data = none ∧ apply_subst [("x", "A")] "()" = "()" :=
  ⟨by decide,
    apply_subst_unmatched_literal_kept.1 [("x", "A")] "()" (by decide)⟩

/-! ### Skolemization and `Exists` (C7) -/

mutual
theorem fsize_subst (v : String) (t : Term) :
    ∀ f, fsize (substitute v t f) = fsize f
  | Node.Predicate n args => by simp [substitute, fsize]
  | Node.Not c => by simp [substitute, fsize, fsize_subst v t c]
  | Node.And cs => by simp [substitute, fsize, fsizeL_subst v t cs]
  | Node.Or cs => by simp [substitute, fsize, fsizeL_subst v t cs]
  | Node.Implies l r => by simp [substitute, fsize]
  | Node.ForAll u b => by
    by_cases h : u = v <;> simp [substitute, h, fsize, fsize_subst v t b]
  | Node.Exists u b => by
    by_cases h : u = v <;> simp [substitute, h, fsize, fsize_subst v t b]
theorem fsizeL_subst (v : String) (t : Term) :
    ∀ cs, fsizeL (substituteL v t cs) = fsizeL cs
  | [] => rfl
  | c :: cs => by
    simp [substituteL, fsizeL, fsize_subst v t c, fsizeL_subst v t cs]
end

mutual
theorem hasImplies_subst (v : String) (t : Term) :
    ∀ f, hasImplies (substitute v t f) = hasImplies f
  | Node.Predicate n args => by simp [substitute, hasImplies]
  | Node.Not c => by simp [substitute, hasImplies, hasImplies_subst v t c]
  | Node.And cs => by simp [substitute, hasImplies, hasImpliesL_subst v t cs]
  | Node.Or cs => by simp [substitute, hasImplies, hasImpliesL_subst v t cs]
  | Node.Implies l r => by simp [substitute, hasImplies]
  | Node.ForAll u b => by
    by_cases h : u = v <;>
      simp [substitute, h, hasImplies, hasImplies_subst v t b]
  | Node.Exists u b => by
    by_cases h : u = v <;>
      simp [substitute, h, hasImplies, hasImplies_subst v t b]
theorem hasImpliesL_subst (v : String) (t : Term) :
    ∀ cs, hasImpliesL (substituteL v t cs) = hasImpliesL cs
  | [] => rfl
  | c :: cs => by
    simp [substituteL, hasImpliesL, hasImplies_subst v t c,
      hasImpliesL_subst v t cs]
end

theorem fsize_lt_of_mem : ∀ (cs : List Node) (c : Node), c ∈ cs →
    fsize c < fsizeL cs := by
  intro cs
  induction cs with
  | nil => intro c h; cases h
  | cons x xs ih =>
    intro c h
    rw [fsizeL]
    rcases List.mem_cons.mp h with rfl | hx
    · omega
    · have := ih c hx; omega

theorem hasImpliesL_eq_false : ∀ cs : List Node,
    hasImpliesL cs = false ↔ ∀ c ∈ cs, hasImplies c = false := by
  intro cs
  induction cs with
  | nil => simp [hasImpliesL]
  | cons x xs ih => simp [hasImpliesL, ih]

theorem threadMap_hasExistsL (g : Node → Nat → Node × Nat)
    (P : Node → Prop)
    (hg : ∀ c cnt, P c → hasExists (g c cnt).1 = false) :
    ∀ (cs : List Node) (cnt : Nat), (∀ c ∈ cs, P c) →
      hasExistsL (threadMap g cs cnt).1 = false := by
  intro cs
  induction cs with
  | nil => intro cnt _; rfl
  | cons c cs ih =>
    intro cnt hall
    simp only [threadMap, hasExistsL]
    rw [hg c cnt (hall c (by simp)), ih _ (fun x hx => hall x (by simp [hx]))]
    rfl

theorem skolemizeF_no_exists : ∀ (n : Nat) (f : Node) (env : List String)
    (cnt : Nat), fsize f < n → hasImplies f = false →
    hasExists (skolemizeF n f env cnt).1 = false := by
  intro n
  induction n with
  | zero => intro f env cnt h _; omega
  | succ n ih =>
    intro f env cnt hsz hImp
    cases f with
    | Predicate name args => rfl
    | Implies l r => simp [hasImplies] at hImp
    | Not c =>
      simp only [skolemizeF, hasExists]
      refine ih c env cnt ?_ ?_
      · rw [fsize] at hsz; omega
      · rwa [hasImplies] at hImp
    | ForAll v b =>
      simp only [skolemizeF, hasExists]
      refine ih b (env ++ [v]) cnt ?_ ?_
      · rw [fsize] at hsz; omega
      · rwa [hasImplies] at hImp
    | Exists v b =>
      simp only [skolemizeF]
      refine ih _ env (cnt + 1) ?_ ?_
      · rw [fsize_subst]; rw [fsize] at hsz; omega
      · rw [hasImplies_subst]; rwa [hasImplies] at hImp
    | And cs =>
      simp only [skolemizeF, hasExists]
      refine threadMap_hasExistsL _
        (fun c => fsize c < n ∧ hasImplies c = false)
        (fun c cnt' hc => ih c env cnt' hc.1 hc.2) cs cnt (fun c hc => ?_)
      rw [fsize] at hsz
      rw [hasImplies] at hImp
      exact ⟨by have := fsize_lt_of_mem cs c hc; omega,
        (hasImpliesL_eq_false cs).mp hImp c hc⟩
    | Or cs =>
      simp only [skolemizeF, hasExists]
      refine threadMap_hasExistsL _
        (fun c => fsize c < n ∧ hasImplies c = false)
        (fun c cnt' hc => ih c env cnt' hc.1 hc.2) cs cnt (fun c hc => ?_)
      rw [fsize] at hsz
      rw [hasImplies] at hImp
      exact ⟨by have := fsize_lt_of_mem cs c hc; omega,
        (hasImpliesL_eq_false cs).mp hImp c hc⟩

/-- C7 (counterexample): `skolemize` does not recurse into `Implies` nodes
(they fall through its `else` branch), so an `Exists` under an `Implies`
survives: the parseable formula `(∃x(P(x)))→Q(A)` keeps its `Exists` after
Skolemization. -/
theorem skolemize_keeps_exists_under_implies :
    parse_formula "(∃x(P(x)))→Q(A)" =
      Node.Implies (Node.Exists "x" (Node.Predicate "P" [Term.Var "x"]))
        (Node.Predicate "Q" [Term.Const "A"]) ∧
    skolemize
        (Node.Implies (Node.Exists "x" (Node.Predicate "P" [Term.Var "x"]))
          (Node.Predicate "Q" [Term.Const "A"])) [] 1 =
      (Node.Implies (Node.Exists "x" (Node.Predicate "P" [Term.Var "x"]))
        (Node.Predicate "Q" [Term.Const "A"]), 1) ∧
    hasExists
      (skolemize
        (Node.Implies (Node.Exists "x" (Node.Predicate "P" [Term.Var "x"]))
          (Node.Predicate "Q" [Term.Const "A"])) [] 1).1 = true :=
  ⟨rfl, rfl, rfl⟩

/-- C7 (amended): for every formula AST containing no `Implies` node — in
particular every output of `eliminate_implications`, which is what the
pipeline feeds to Skolemization — the result of `skolemize` contains no
`Exists` node anywhere. -/
theorem skolemize_no_exists_when_no_implies (f : Node) (env : List String)
    (cnt : Nat) (h : hasImplies f = false) :
    hasExists (skolemize f env cnt).1 = false :=
  skolemizeF_no_exists (fsize f + 1) f env cnt (by omega) h

theorem skolemize_no_exists_when_no_implies_witness :
    hasImplies
        (Node.ForAll "y"
          (Node.Exists "x"
            (Node.Predicate "R" [Term.Var "x", Term.Var "y"]))) = false ∧
    hasExists
      (skolemize
        (Node.ForAll "y"
          (Node.Exists "x"
            (Node.Predicate "R" [Term.Var "x", Term.Var "y"]))) [] 1).1 =
      false :=
  ⟨rfl, skolemize_no_exists_when_no_implies _ [] 1 rfl⟩
/-! ### The depth-zero split of `parse_formula` (C3) -/

theorem splitTop_ne_nil (sep : Char) (d : Int) (s : List Char) :
    splitTop sep d s ≠ [] := by
  cases s with
  | nil => simp [splitTop]
  | cons c cs =>
    simp only [splitTop]
    split
    · simp
    · cases h : splitTop sep (depthStep d c) cs <;> simp

theorem joinWith_cons_cons (sep c : Char) (p : List Char)
    (ps : List (List Char)) :
    joinWith sep ((c :: p) :: ps) = c :: joinWith sep (p :: ps) := by
  cases ps <;> simp [joinWith]

theorem splitTop_join (sep : Char) :
    ∀ (s : List Char) (d : Int), joinWith sep (splitTop sep d s) = s := by
  intro s
  induction s with
  | nil => intro d; simp [splitTop, joinWith]
  | cons c cs ih =>
    intro d
    simp only [splitTop]
    have h2 := ih (depthStep d c)
    by_cases hc : c = sep ∧ depthStep d c = 0
    · rw [if_pos hc]
      cases hps : splitTop sep (depthStep d c) cs with
      | nil => exact absurd hps (splitTop_ne_nil sep _ cs)
      | cons p ps =>
        rw [hps] at h2
        show joinWith sep ([] :: p :: ps) = c :: cs
        show [] ++ sep :: joinWith sep (p :: ps) = c :: cs
        rw [h2, hc.1]
        rfl
    · rw [if_neg hc]
      cases hps : splitTop sep (depthStep d c) cs with
      | nil => exact absurd hps (splitTop_ne_nil sep _ cs)
      | cons p ps =>
        rw [hps] at h2
        rw [joinWith_cons_cons, h2]

theorem depthStep_eq (d : Int) (c : Char) : depthStep d c = d + charDiff c := by
  unfold depthStep charDiff
  split_ifs <;> omega

theorem charDiff_eq_zero {sep : Char} (h1 : sep ≠ '(') (h2 : sep ≠ ')') :
    charDiff sep = 0 := by
  simp [charDiff, h1, h2]

theorem topSepD_zero (sep c : Char) (cs : List Char) (d : Int) :
    TopSepD sep (c :: cs) 0 d ↔ (c = sep ∧ d = 0) := by
  unfold TopSepD
  simp

theorem topSepD_succ (sep c : Char) (cs : List Char) (k : Nat) (d : Int) :
    TopSepD sep (c :: cs) (k + 1) d ↔ TopSepD sep cs k (depthStep d c) := by
  unfold TopSepD
  rw [depthStep_eq]
  simp only [List.take_succ_cons, List.map_cons, List.sum_cons]
  constructor
  · rintro ⟨hg, hs⟩; exact ⟨hg, by omega⟩
  · rintro ⟨hg, hs⟩; exact ⟨hg, by omega⟩

theorem splitTop_single_no_top {sep : Char} (h1 : sep ≠ '(')
    (h2 : sep ≠ ')') :
    ∀ (s : List Char) (d : Int) (p : List Char),
      splitTop sep d s = [p] → ∀ k, ¬TopSepD sep s k d := by
  intro s
  induction s with
  | nil =>
    intro d p _ k htop
    rw [TopSepD] at htop
    simp at htop
  | cons c cs ih =>
    intro d p h k htop
    simp only [splitTop] at h
    by_cases hc : c = sep ∧ depthStep d c = 0
    · rw [if_pos hc] at h
      cases hps : splitTop sep (depthStep d c) cs with
      | nil => exact absurd hps (splitTop_ne_nil sep _ cs)
      | cons q qs =>
        rw [hps] at h
        injection h with hh1 hh2
        exact absurd hh2 (by simp)
    · rw [if_neg hc] at h
      cases hps : splitTop sep (depthStep d c) cs with
      | nil => exact absurd hps (splitTop_ne_nil sep _ cs)
      | cons q qs =>
        rw [hps] at h
        injection h with hh1 hh2
        subst hh2
        cases k with
        | zero =>
          rw [topSepD_zero] at htop
          apply hc
          refine ⟨htop.1, ?_⟩
          rw [depthStep_eq, htop.1, charDiff_eq_zero h1 h2, htop.2]
          omega
        | succ k =>
          rw [topSepD_succ] at htop
          exact ih (depthStep d c) q hps k htop

theorem splitTop_multi_top {sep : Char} (h1 : sep ≠ '(') (h2 : sep ≠ ')') :
    ∀ (s : List Char) (d : Int) (p q : List Char) (ps : List (List Char)),
      splitTop sep d s = p :: q :: ps →
      TopSepD sep s p.length d ∧ ∀ k < p.length, ¬TopSepD sep s k d := by
  intro s
  induction s with
  | nil =>
    intro d p q ps h
    simp [splitTop] at h
  | cons c cs ih =>
    intro d p q ps h
    simp only [splitTop] at h
    by_cases hc : c = sep ∧ depthStep d c = 0
    · rw [if_pos hc] at h
      injection h with hh1 hh2
      subst hh1
      refine ⟨?_, by simp⟩
      show TopSepD sep (c :: cs) 0 d
      rw [topSepD_zero]
      refine ⟨hc.1, ?_⟩
      have h3 := hc.2
      rw [depthStep_eq, hc.1, charDiff_eq_zero h1 h2] at h3
      omega
    · rw [if_neg hc] at h
      cases hps : splitTop sep (depthStep d c) cs with
      | nil => exact absurd hps (splitTop_ne_nil sep _ cs)
      | cons p' ps' =>
        rw [hps] at h
        injection h with hh1 hh2
        subst hh2
        obtain ⟨htop', hmin'⟩ := ih (depthStep d c) p' q ps hps
        subst hh1
        constructor
        · rw [List.length_cons, topSepD_succ]
          exact htop'
        · intro k hk
          cases k with
          | zero =>
            rw [topSepD_zero]
            rintro ⟨hcz, hdz⟩
            apply hc
            refine ⟨hcz, ?_⟩
            rw [depthStep_eq, hcz, charDiff_eq_zero h1 h2, hdz]
            omega
          | succ k =>
            rw [topSepD_succ]
            exact hmin' k (by simpa using hk)

theorem charDiff_sum : ∀ l : List Char,
    (l.map charDiff).sum = (l.count '(' : Int) - (l.count ')' : Int) := by
  intro l
  induction l with
  | nil => simp
  | cons c cs ih =>
    simp only [List.map_cons, List.sum_cons, ih, List.count_cons]
    by_cases ha : c = '('
    · subst ha
      simp [charDiff]
      omega
    · by_cases hb : c = ')'
      · subst hb
        simp [charDiff]
        omega
      · simp only [charDiff, ha, hb, if_false]
        have hba : (c == '(') = false := by simp [ha]
        have hbb : (c == ')') = false := by simp [hb]
        simp only [hba, hbb, if_false]
        push_cast
        omega

theorem isTopSep_iff (sep : Char) (s : List Char) (k : Nat) :
    IsTopSep sep s k ↔ TopSepD sep s k 0 := by
  unfold IsTopSep TopSepD
  rw [charDiff_sum]
  constructor
  · rintro ⟨hg, hc⟩; exact ⟨hg, by omega⟩
  · rintro ⟨hg, hc⟩; exact ⟨hg, by omega⟩

theorem joinWith_length (sep : Char) :
    ∀ ps : List (List Char), ps ≠ [] →
      (joinWith sep ps).length + 1 = (ps.map List.length).sum + ps.length := by
  intro ps
  induction ps with
  | nil => intro h; exact absurd rfl h
  | cons p ps ih =>
    intro _
    cases ps with
    | nil => simp [joinWith]
    | cons q ps' =>
      have h2 := ih (by simp)
      simp only [joinWith, List.length_append, List.length_cons, List.map_cons,
        List.sum_cons] at h2 ⊢
      omega

theorem splitTop_piece_length_lt (sep : Char) (d : Int) (s : List Char)
    (p q : List Char) (ps : List (List Char))
    (h : splitTop sep d s = p :: q :: ps) :
    ∀ x ∈ p :: q :: ps, x.length < s.length := by
  intro x hx
  have hj := splitTop_join sep s d
  rw [h] at hj
  have hl := joinWith_length sep (p :: q :: ps) (by simp)
  rw [hj] at hl
  have hx' : x.length ≤ ((p :: q :: ps).map List.length).sum :=
    List.single_le_sum (fun a _ => Nat.zero_le a) _
      (List.mem_map_of_mem List.length hx)
  have hcount : 2 ≤ (p :: q :: ps).length := by simp
  omega

theorem splitTop_decompose (sep : Char) (d : Int) (s : List Char)
    (p q : List Char) (ps : List (List Char))
    (h : splitTop sep d s = p :: q :: ps) :
    p = s.take p.length ∧ joinWith sep (q :: ps) = s.drop (p.length + 1) ∧
      (joinWith sep (q :: ps)).length + p.length + 1 = s.length := by
  have hj := splitTop_join sep s d
  rw [h] at hj
  have hj' : p ++ sep :: joinWith sep (q :: ps) = s := hj
  refine ⟨?_, ?_, ?_⟩
  · rw [← hj', List.take_left]
  · rw [← hj', ← List.drop_drop, List.drop_left, List.drop_one,
      List.tail_cons]
  · have := congrArg List.length hj'
    simp only [List.length_append, List.length_cons] at this
    omega

theorem stripOuter_length_le (s : List Char) :
    (stripOuter s).length ≤ s.length := by
  unfold stripOuter
  split
  · split
    · simp only [List.length_dropLast, List.length_drop]
      omega
    · exact le_refl _
  · exact le_refl _

theorem quantMatch_length_lt (q : Char) (s : List Char) (v body : List Char)
    (h : quantMatch q s = some (v, body)) : body.length < s.length := by
  unfold quantMatch at h
  cases s with
  | nil => exact absurd h (by simp)
  | cons c rest =>
    dsimp only at h
    split at h
    · split at h
      · exact absurd h (by simp)
      · split at h
        · rename_i rest3 heq2
          split at h
          · split at h
            · injection h with h'
              injection h' with hv hb
              have h1 : (List.dropWhile isQuantIdent rest).length ≤ rest.length :=
                (List.dropWhile_sublist _).length_le
              rw [heq2] at h1
              simp only [List.length_cons] at h1
              rw [← hb]
              simp only [List.length_dropLast, List.length_cons]
              omega
            · exact absurd h (by simp)
          · exact absurd h (by simp)
        · exact absurd h (by simp)
    · exact absurd h (by simp)

theorem takeWhile_ne_length_lt (sep : Char) :
    ∀ s : List Char, sep ∈ s →
      (s.takeWhile (fun c => c ≠ sep)).length < s.length := by
  intro s
  induction s with
  | nil => intro h; cases h
  | cons c cs ih =>
    intro h
    by_cases hc : c = sep
    · subst hc
      rw [List.takeWhile_cons_of_neg (by simp)]
      simp
    · rw [List.takeWhile_cons_of_pos (by simp [hc])]
      simp only [List.length_cons]
      have hmem : sep ∈ cs := by
        rcases List.mem_cons.mp h with h1 | h1
        · exact absurd h1.symm hc
        · exact h1
      exact Nat.succ_lt_succ (ih hmem)

theorem afterFirst_length_lt (sep : Char) (s : List Char) (h : sep ∈ s) :
    (afterFirst sep s).length < s.length := by
  unfold afterFirst
  have h1 : (s.dropWhile (fun c => c ≠ sep)).length ≤ s.length :=
    (List.dropWhile_sublist _).length_le
  have h2 : 1 ≤ s.length := List.length_pos.mpr (by rintro rfl; cases h)
  rw [List.length_drop]
  omega

theorem first_occurrence_take_drop (sep : Char) :
    ∀ (s : List Char) (k : Nat), s.get? k = some sep →
      (∀ j, j < k → s.get? j ≠ some sep) →
      s.takeWhile (fun c => c ≠ sep) = s.take k ∧
        afterFirst sep s = s.drop (k + 1) := by
  intro s
  induction s with
  | nil => intro k h; simp at h
  | cons c cs ih =>
    intro k hk hmin
    cases k with
    | zero =>
      simp only [List.get?_cons_zero, Option.some.injEq] at hk
      subst hk
      constructor
      · rw [List.takeWhile_cons_of_neg (by simp)]
        simp
      · unfold afterFirst
        rw [List.dropWhile_cons_of_neg (by simp)]
    | succ k =>
      have hc : c ≠ sep := by
        have h0 := hmin 0 (Nat.succ_pos k)
        simpa using h0
      obtain ⟨ih1, ih2⟩ := ih k (by simpa using hk) (fun j hj => by
        have hj' := hmin (j + 1) (by omega)
        simpa using hj')
      constructor
      · rw [List.takeWhile_cons_of_pos (by simp [hc]), List.take_succ_cons, ih1]
      · unfold afterFirst at ih2 ⊢
        rw [List.dropWhile_cons_of_pos (by simp [hc]), List.drop_succ_cons]
        exact ih2

theorem parseStep_congr (rec₁ rec₂ : List Char → Node) (s : List Char)
    (h : ∀ p : List Char, p.length < s.length → rec₁ p = rec₂ p) :
    parseStep rec₁ s = parseStep rec₂ s := by
  unfold parseStep
  dsimp only
  have hlen : (stripOuter (s.filter (fun c => c ≠ ' '))).length ≤ s.length :=
    le_trans (stripOuter_length_le _) (List.length_filter_le _ _)
  set t := stripOuter (s.filter (fun c => c ≠ ' ')) with ht
  clear_value t
  cases hq1 : quantMatch '∀' t with
  | some vb =>
    obtain ⟨v, body⟩ := vb
    have hbl := quantMatch_length_lt '∀' t v body hq1
    dsimp only
    rw [h body (by omega)]
  | none =>
  dsimp only
  cases hq2 : quantMatch '∃' t with
  | some vb =>
    obtain ⟨v, body⟩ := vb
    have hbl := quantMatch_length_lt '∃' t v body hq2
    dsimp only
    rw [h body (by omega)]
  | none =>
  dsimp only
  have hnot : ∀ rest : List Char, t = '¬' :: rest → rec₁ rest = rec₂ rest := by
    intro rest hrest
    apply h
    have : t.length = rest.length + 1 := by rw [hrest]; rfl
    omega
  have hpiece : ∀ (sep : Char) (p q : List Char) (ps : List (List Char)),
      splitTop sep 0 t = p :: q :: ps →
      ∀ x ∈ p :: q :: ps, rec₁ x = rec₂ x := by
    intro sep p q ps hsp x hx
    exact h x (lt_of_lt_of_le (splitTop_piece_length_lt sep 0 t p q ps hsp x hx) hlen)
  have hjoin : ∀ (sep : Char) (p q : List Char) (ps : List (List Char)),
      splitTop sep 0 t = p :: q :: ps →
      rec₁ (joinWith sep (q :: ps)) = rec₂ (joinWith sep (q :: ps)) := by
    intro sep p q ps hsp
    apply h
    have := (splitTop_decompose sep 0 t p q ps hsp).2.2
    omega
  split
  · -- '→' ∈ t
    rename_i him
    split
    · rename_i p q ps hsp
      rw [hpiece '→' p q ps hsp p (by simp), hjoin '→' p q ps hsp]
    · rw [h _ (lt_of_lt_of_le (takeWhile_ne_length_lt '→' t (by assumption)) hlen),
        h _ (lt_of_lt_of_le (afterFirst_length_lt '→' t (by assumption)) hlen)]
  · -- no top-level '→'
    split
    · -- '∨' ∈ t
      split
      · rename_i p q ps hsp
        have := hpiece '∨' p q ps hsp
        congr 1
        exact List.map_congr_left this
      · -- fall through to the '∧' level
        split
        · split
          · rename_i p q ps hsp
            have := hpiece '∧' p q ps hsp
            congr 1
            exact List.map_congr_left this
          · split
            · rw [hnot _ rfl]
            · rfl
        · split
          · rw [hnot _ rfl]
          · rfl
    · -- no '∨' either
      split
      · split
        · rename_i p q ps hsp
          have := hpiece '∧' p q ps hsp
          congr 1
          exact List.map_congr_left this
        · split
          · rw [hnot _ rfl]
          · rfl
      · split
        · rw [hnot _ rfl]
        · rfl

theorem parseF_fuel : ∀ (n m : Nat) (s : List Char),
    s.length < n → s.length < m → parseF n s = parseF m s := by
  intro n
  induction n using Nat.strong_induction_on with
  | _ n ih =>
    intro m s hn hm
    obtain ⟨n', rfl⟩ : ∃ n', n = n' + 1 := ⟨n - 1, by omega⟩
    obtain ⟨m', rfl⟩ : ∃ m', m = m' + 1 := ⟨m - 1, by omega⟩
    show parseStep (parseF n') s = parseStep (parseF m') s
    apply parseStep_congr
    intro p hp
    exact ih n' (by omega) m' p (by omega) (by omega)

theorem parseF_eq_parse (n : Nat) (s : List Char) (h : s.length < n) :
    parseF n s = parse_formula (String.mk s) :=
  parseF_fuel n (s.length + 1) s h (by omega)

/-- Under the hypotheses that put `parse_formula` into its implication
branch (a space-free string, no outer-parenthesis strip, no quantifier
match, `→` present), one parsing step is the `→` split: the leftmost
depth-zero split when the scan finds one, otherwise `split('→', 1)`. -/
theorem parseStep_imp (rec : List Char → Node) (s : List Char)
    (hf : s.filter (fun c => c ≠ ' ') = s) (hst : stripOuter s = s)
    (hq1 : quantMatch '∀' s = none) (hq2 : quantMatch '∃' s = none)
    (hmem : '→' ∈ s) :
    parseStep rec s =
      match splitTop '→' 0 s with
      | p :: q :: ps => Node.Implies (rec p) (rec (joinWith '→' (q :: ps)))
      | _ => Node.Implies (rec (s.takeWhile (fun c => c ≠ '→')))
          (rec (afterFirst '→' s)) := by
  unfold parseStep
  dsimp only
  rw [hf, hst, hq1]
  dsimp only
  rw [hq2]
  dsimp only
  rw [if_pos hmem]

/-- C3 (counterexample): in the spec's own example `"(A(x)→B(x))∧C(x)"`
every `→` lies inside parentheses — the depth-zero scan finds nothing
(`splitTop` returns the whole string as a single piece, and no index is a
depth-zero `→`) — yet `parse_formula` *does* return a top-level
`Implication`, produced by the `split('→', 1)` fallback. -/
theorem parse_nested_implies_still_top_level :
    parse_formula "(A(x)→B(x))∧C(x)" =
      Node.Implies (Node.Predicate "Ax" [])
        (Node.Predicate "B" [Term.Var "xCx"]) ∧
    splitTop '→' 0 "(A(x)→B(x))∧C(x)".data = ["(A(x)→B(x))∧C(x)".data] ∧
    (∀ k, ¬IsTopSep '→' "(A(x)→B(x))∧C(x)".data k) := by
  refine ⟨rfl, by decide, fun k hk => ?_⟩
  exact splitTop_single_no_top (by decide) (by decide) _ 0 _
    (show splitTop '→' 0 "(A(x)→B(x))∧C(x)".data =
      ["(A(x)→B(x))∧C(x)".data] by decide) k
    ((isTopSep_iff _ _ _).mp hk)

/-- C3 (amended): consider a string (spaces already removed) on which the
outer-parenthesis strip and the quantifier matches do not fire, and which
contains `→`.  When a depth-zero `→` exists, `parse_formula` splits at the
*leftmost* depth-zero occurrence, re-parsing the remainder as one
expression (right-associative shape).  But when every `→` is nested inside
parentheses the string is *still* parsed as a top-level `Implication`: the
fallback splits at the leftmost `→` regardless of depth. -/
theorem parse_formula_implies_split :
    ∀ s : List Char,
      s.filter (fun c => c ≠ ' ') = s →
      stripOuter s = s →
      quantMatch '∀' s = none →
      quantMatch '∃' s = none →
      '→' ∈ s →
      (∀ k0 : Nat, IsTopSep '→' s k0 → (∀ j, j < k0 → ¬IsTopSep '→' s j) →
        parse_formula (String.mk s) =
          Node.Implies (parse_formula (String.mk (s.take k0)))
            (parse_formula (String.mk (s.drop (k0 + 1))))) ∧
      ((∀ k, ¬IsTopSep '→' s k) →
        ∀ k1 : Nat, s.get? k1 = some '→' →
          (∀ j, j < k1 → s.get? j ≠ some '→') →
          parse_formula (String.mk s) =
            Node.Implies (parse_formula (String.mk (s.take k1)))
              (parse_formula (String.mk (s.drop (k1 + 1))))) := by
  intro s hf hst hq1 hq2 hmem
  have hstep : parse_formula (String.mk s) = parseStep (parseF s.length) s :=
    rfl
  rw [hstep, parseStep_imp (parseF s.length) s hf hst hq1 hq2 hmem]
  constructor
  · intro k0 htop hmin
    cases hsp : splitTop '→' 0 s with
    | nil => exact absurd hsp (splitTop_ne_nil _ _ _)
    | cons p ps =>
      cases ps with
      | nil =>
        exact absurd ((isTopSep_iff _ _ _).mp htop)
          (splitTop_single_no_top (by decide) (by decide) s 0 p hsp k0)
      | cons q ps' =>
        obtain ⟨htop', hmin'⟩ :=
          splitTop_multi_top (by decide) (by decide) s 0 p q ps' hsp
        have hk0 : p.length = k0 := by
          rcases Nat.lt_trichotomy p.length k0 with hlt | heq | hgt
          · exact absurd ((isTopSep_iff _ _ _).mpr htop') (hmin _ hlt)
          · exact heq
          · exact absurd ((isTopSep_iff _ _ _).mp htop) (hmin' k0 hgt)
        obtain ⟨hp, hdrop, hlenj⟩ := splitTop_decompose '→' 0 s p q ps' hsp
        have hplt : p.length < s.length :=
          splitTop_piece_length_lt '→' 0 s p q ps' hsp p (by simp)
        have hjlt : (joinWith '→' (q :: ps')).length < s.length := by omega
        dsimp only
        rw [← hk0, ← hp, ← hdrop]
        rw [parseF_eq_parse _ p hplt, parseF_eq_parse _ _ hjlt]
  · intro hno k1 hk1 hmin
    cases hsp : splitTop '→' 0 s with
    | nil => exact absurd hsp (splitTop_ne_nil _ _ _)
    | cons p ps =>
      cases ps with
      | cons q ps' =>
        obtain ⟨htop', _⟩ :=
          splitTop_multi_top (by decide) (by decide) s 0 p q ps' hsp
        exact absurd ((isTopSep_iff _ _ _).mpr htop') (hno p.length)
      | nil =>
        dsimp only
        obtain ⟨ht, hd⟩ := first_occurrence_take_drop '→' s k1 hk1 hmin
        have hlt1 : (s.takeWhile (fun c => c ≠ '→')).length < s.length :=
          takeWhile_ne_length_lt '→' s hmem
        have hlt2 : (afterFirst '→' s).length < s.length :=
          afterFirst_length_lt '→' s hmem
        rw [parseF_eq_parse _ _ hlt1, parseF_eq_parse _ _ hlt2, ht, hd]

theorem parse_formula_implies_split_witness :
    ("(A(x)→B(x))∧C(x)".data.filter (fun c => c ≠ ' ') =
      "(A(x)→B(x))∧C(x)".data) ∧
    parse_formula (String.mk "(A(x)→B(x))∧C(x)".data) =
      Node.Implies
        (parse_formula (String.mk ("(A(x)→B(x))∧C(x)".data.take 5)))
        (parse_formula (String.mk ("(A(x)→B(x))∧C(x)".data.drop 6))) := by
  refine ⟨by decide, ?_⟩
  have hno : ∀ k, ¬IsTopSep '→' "(A(x)→B(x))∧C(x)".data k := fun k hk =>
    splitTop_single_no_top (by decide) (by decide) _ 0 _
      (show splitTop '→' 0 "(A(x)→B(x))∧C(x)".data =
        ["(A(x)→B(x))∧C(x)".data] by decide) k
      ((isTopSep_iff _ _ _).mp hk)
  exact (parse_formula_implies_split "(A(x)→B(x))∧C(x)".data (by decide)
    (by decide) (by decide) (by decide) (by decide)).2 hno 5 (by decide)
    (by decide)

/-! ### Ground saturation terminates (C5)

The string resolver can only ever produce literals drawn from a finite
universe: on ground clauses every successful unification yields the empty
substitution, so every resolvent literal is `apply_subst [] l` — the
canonical re-serialization — of a literal already in the database.
`apply_subst []` is idempotent, the clause set is duplicate-free and only
grows, and resolvents are strictly sorted over the universe, so the number
of sweeps that add a clause is bounded. -/

theorem pySplitAll_ne_nil (sep : Char) (s : List Char) :
    pySplitAll sep s ≠ [] := by
  cases s with
  | nil => simp [pySplitAll]
  | cons c cs =>
    simp only [pySplitAll]
    split
    · simp
    · cases h : pySplitAll sep cs <;> simp

theorem pySplitAll_not_mem (sep : Char) :
    ∀ (s : List Char) (x : List Char), x ∈ pySplitAll sep s → sep ∉ x := by
  intro s
  induction s with
  | nil =>
    intro x hx
    simp only [pySplitAll, List.mem_singleton] at hx
    subst hx
    simp
  | cons c cs ih =>
    intro x hx
    simp only [pySplitAll] at hx
    by_cases hc : c = sep
    · rw [if_pos hc] at hx
      rcases List.mem_cons.mp hx with rfl | hx'
      · simp
      · exact ih x hx'
    · rw [if_neg hc] at hx
      cases hps : pySplitAll sep cs with
      | nil => exact absurd hps (pySplitAll_ne_nil sep cs)
      | cons p ps =>
        rw [hps] at hx
        rcases List.mem_cons.mp hx with rfl | hx'
        · intro hmem
          rcases List.mem_cons.mp hmem with h1 | h1
          · exact hc h1.symm
          · exact ih p (hps ▸ List.mem_cons_self p ps) h1
        · exact ih x (hps ▸ List.mem_cons.mpr (Or.inr hx'))

theorem pySplitAll_no_sep (sep : Char) :
    ∀ s : List Char, sep ∉ s → pySplitAll sep s = [s] := by
  intro s
  induction s with
  | nil => intro _; rfl
  | cons c cs ih =>
    intro h
    have hc : c ≠ sep := fun hh => h (hh ▸ List.mem_cons_self c cs)
    have hcs : sep ∉ cs := fun hh => h (List.mem_cons.mpr (Or.inr hh))
    simp only [pySplitAll]
    rw [if_neg hc, ih hcs]

theorem pySplitAll_append_sep (sep : Char) :
    ∀ (p t : List Char), sep ∉ p →
      pySplitAll sep (p ++ sep :: t) = p :: pySplitAll sep t := by
  intro p
  induction p with
  | nil =>
    intro t _
    show pySplitAll sep (sep :: t) = [] :: pySplitAll sep t
    simp [pySplitAll]
  | cons c cs ih =>
    intro t hp
    have hc : c ≠ sep := fun hh => hp (hh ▸ List.mem_cons_self c cs)
    have hcs : sep ∉ cs := fun hh => hp (List.mem_cons.mpr (Or.inr hh))
    show pySplitAll sep (c :: (cs ++ sep :: t)) = (c :: cs) :: pySplitAll sep t
    simp only [pySplitAll]
    rw [if_neg hc, ih t hcs]

theorem pySplitAll_joinWith (sep : Char) :
    ∀ ps : List (List Char), ps ≠ [] → (∀ p ∈ ps, sep ∉ p) →
      pySplitAll sep (joinWith sep ps) = ps := by
  intro ps
  induction ps with
  | nil => intro h; exact absurd rfl h
  | cons p ps ih =>
    intro _ hall
    cases ps with
    | nil =>
      show pySplitAll sep p = [p]
      exact pySplitAll_no_sep sep p (hall p (by simp))
    | cons q ps' =>
      show pySplitAll sep (p ++ sep :: joinWith sep (q :: ps')) = _
      rw [pySplitAll_append_sep sep p _ (hall p (by simp)),
        ih (by simp) (fun x hx => hall x (List.mem_cons.mpr (Or.inr hx)))]

theorem mem_pyStrip (s : List Char) (c : Char) (h : c ∈ pyStrip s) :
    c ∈ s := by
  unfold pyStrip at h
  rw [List.mem_reverse] at h
  have h1 := List.dropWhile_subset (l := (s.dropWhile isPySpace).reverse)
    isPySpace h
  rw [List.mem_reverse] at h1
  exact List.dropWhile_subset isPySpace h1

theorem dropWhile_self (p : Char → Bool) (l : List Char) :
    (l.dropWhile p).dropWhile p = l.dropWhile p := by
  have h := List.head?_dropWhile_not p l
  cases hd : l.dropWhile p with
  | nil => rfl
  | cons c cs =>
    rw [hd] at h
    simp only [List.head?_cons] at h
    exact List.dropWhile_cons_of_neg (by simp [h])

theorem dropWhile_eq_self_of_head (p : Char → Bool) (l : List Char)
    (h : ∀ c, l.head? = some c → p c = false) : l.dropWhile p = l := by
  cases l with
  | nil => rfl
  | cons c cs =>
    exact List.dropWhile_cons_of_neg (by simp [h c rfl])

theorem pyStrip_head (s : List Char) :
    ∀ c, (pyStrip s).head? = some c → isPySpace c = false := by
  intro c hc
  unfold pyStrip at hc
  rw [← List.getLast?_eq_head?_reverse] at hc
  -- `hc : getLast? (dropWhile isPySpace (dropWhile isPySpace s).reverse) = some c`
  set u := (s.dropWhile isPySpace).reverse with hu
  have hsuf : u.dropWhile isPySpace <:+ u := List.dropWhile_suffix _
  obtain ⟨pre, hpre⟩ := hsuf
  cases hv : u.dropWhile isPySpace with
  | nil => rw [hv] at hc; exact absurd hc (by simp)
  | cons v vs =>
    rw [hv] at hc hpre
    have : u.getLast? = some c := by
      rw [← hpre, List.getLast?_append]
      rw [hc]
      rfl
    rw [hu, List.getLast?_eq_head?_reverse, List.reverse_reverse] at this
    have hh := List.head?_dropWhile_not isPySpace s
    cases hd : (s.dropWhile isPySpace).head? with
    | none => rw [hd] at this; exact absurd this (by simp)
    | some x =>
      rw [hd] at this hh
      cases this
      exact hh

theorem pyStrip_getLast (s : List Char) :
    ∀ c, (pyStrip s).getLast? = some c → isPySpace c = false := by
  intro c hc
  unfold pyStrip at hc
  rw [List.getLast?_eq_head?_reverse, List.reverse_reverse] at hc
  have hh := List.head?_dropWhile_not isPySpace (s.dropWhile isPySpace).reverse
  cases hd : ((s.dropWhile isPySpace).reverse.dropWhile isPySpace).head? with
  | none => rw [hd] at hc; exact absurd hc (by simp)
  | some x =>
    rw [hd] at hc hh
    cases hc
    exact hh

theorem pyStrip_of_clean (w : List Char)
    (h1 : ∀ c, w.head? = some c → isPySpace c = false)
    (h2 : ∀ c, w.getLast? = some c → isPySpace c = false) :
    pyStrip w = w := by
  unfold pyStrip
  rw [dropWhile_eq_self_of_head isPySpace w h1]
  rw [dropWhile_eq_self_of_head isPySpace w.reverse (fun c hc => by
    rw [← List.getLast?_eq_head?_reverse] at hc
    exact h2 c hc)]
  exact List.reverse_reverse w

theorem pyStrip_idem (s : List Char) : pyStrip (pyStrip s) = pyStrip s :=
  pyStrip_of_clean (pyStrip s) (pyStrip_head s) (pyStrip_getLast s)

theorem takeWhile_append_all (p : Char → Bool) :
    ∀ (xs : List Char) (y : Char) (ys : List Char),
      (∀ x ∈ xs, p x = true) → p y = false →
      (xs ++ y :: ys).takeWhile p = xs ∧ (xs ++ y :: ys).dropWhile p = y :: ys := by
  intro xs
  induction xs with
  | nil =>
    intro y ys _ hy
    constructor
    · exact List.takeWhile_cons_of_neg (by simp [hy])
    · exact List.dropWhile_cons_of_neg (by simp [hy])
  | cons x xs ih =>
    intro y ys hall hy
    obtain ⟨ih1, ih2⟩ := ih y ys (fun z hz => hall z (by simp [hz])) hy
    constructor
    · rw [List.cons_append, List.takeWhile_cons_of_pos (hall x (by simp)), ih1]
    · rw [List.cons_append, List.dropWhile_cons_of_pos (hall x (by simp)), ih2]

theorem upToLastParen_append (body : List Char) :
    upToLastParen (body ++ [')']) = some body := by
  unfold upToLastParen
  rw [List.reverse_append]
  show (match List.dropWhile (fun c => decide (c ≠ ')')) (')' :: body.reverse) with
    | [] => none
    | _ :: revContent => some revContent.reverse) = some body
  rw [List.dropWhile_cons_of_neg (by simp)]
  simp

theorem coreMatch_of_shape (pred : List Char) (body : List Char)
    (hne : pred ≠ []) (hid : ∀ c ∈ pred, isIdentChar c = true) :
    coreMatch (pred ++ '(' :: (body ++ [')'])) = some (pred, body) := by
  unfold coreMatch
  obtain ⟨ht, hd⟩ := takeWhile_append_all isIdentChar pred '(' (body ++ [')'])
    hid (by decide)
  rw [ht, hd]
  simp only [List.isEmpty_eq_true, hne, if_false]
  rw [upToLastParen_append]
  rfl

theorem litMatch_cons_ne (c : Char) (r : List Char) (h : c ≠ '¬') :
    litMatch (c :: r) =
      (coreMatch (c :: r)).map (fun na => (false, na.1, na.2)) := by
  unfold litMatch
  split
  · rename_i heq
    injection heq with h1 h2
    exact absurd h1 h
  · rfl

theorem litMatch_mkLitStr (neg : Bool) (pred : List Char)
    (args : List String) (hne : pred ≠ [])
    (hid : ∀ c ∈ pred, isIdentChar c = true) :
    litMatch (mkLitStr neg pred args).data =
      some (neg, pred, joinWith ',' (args.map String.data)) := by
  cases neg with
  | true =>
    have hdata : (mkLitStr true pred args).data =
        '¬' :: (pred ++ '(' :: (joinWith ',' (args.map String.data) ++ [')'])) :=
      rfl
    rw [hdata]
    show (coreMatch
        (pred ++ '(' :: (joinWith ',' (args.map String.data) ++ [')']))).map
        (fun na => (true, na.1, na.2)) =
      some (true, pred, joinWith ',' (args.map String.data))
    rw [coreMatch_of_shape pred _ hne hid]
    rfl
  | false =>
    have hdata : (mkLitStr false pred args).data =
        pred ++ '(' :: (joinWith ',' (args.map String.data) ++ [')']) := rfl
    rw [hdata]
    cases hp : pred with
    | nil => exact absurd hp hne
    | cons c cs =>
      have hc : c ≠ '¬' := by
        intro hcn
        have hcid := hid c (by rw [hp]; simp)
        rw [hcn] at hcid
        exact absurd hcid (by decide)
      rw [List.cons_append, litMatch_cons_ne c _ hc, ← List.cons_append, ← hp,
        coreMatch_of_shape pred _ hne hid]
      rfl

theorem coreMatch_pred_facts (s : List Char) (pred args : List Char)
    (hs : coreMatch s = some (pred, args)) :
    pred ≠ [] ∧ ∀ c ∈ pred, isIdentChar c = true := by
  unfold coreMatch at hs
  dsimp only at hs
  split at hs
  · exact absurd hs (by simp)
  · rename_i hempty
    split at hs
    · rename_i r heq
      simp only [Option.map_eq_some'] at hs
      obtain ⟨content, hup, heq2⟩ := hs
      injection heq2 with h1 h2
      subst h1
      exact ⟨by simpa using hempty, fun c hc => List.mem_takeWhile_imp hc⟩
    · exact absurd hs (by simp)

theorem litMatch_pred_facts (l : List Char) (neg : Bool)
    (pred args : List Char) (h : litMatch l = some (neg, pred, args)) :
    pred ≠ [] ∧ ∀ c ∈ pred, isIdentChar c = true := by
  unfold litMatch at h
  split at h
  · simp only [Option.map_eq_some'] at h
    obtain ⟨⟨p2, a2⟩, hcm, heq⟩ := h
    injection heq with h1 h2
    injection h2 with h2 h3
    subst h2; subst h3
    exact coreMatch_pred_facts _ _ _ hcm
  · simp only [Option.map_eq_some'] at h
    obtain ⟨⟨p2, a2⟩, hcm, heq⟩ := h
    injection heq with h1 h2
    injection h2 with h2 h3
    subst h2; subst h3
    exact coreMatch_pred_facts _ _ _ hcm

theorem apply_subst_nil_of_match (l : String) (neg : Bool)
    (pred args : List Char) (h : litMatch l.data = some (neg, pred, args)) :
    apply_subst [] l =
      mkLitStr neg pred
        ((pySplitAll ',' args).map (fun t => String.mk (pyStrip t))) := by
  unfold apply_subst
  rw [h]
  rfl

theorem map_data_map_mk_strip (toks : List (List Char)) :
    ((toks.map (fun t => String.mk (pyStrip t))).map String.data) =
      toks.map pyStrip := by
  rw [List.map_map]
  rfl

theorem strip_toks_no_comma (args : List Char) :
    ∀ x ∈ (pySplitAll ',' args).map pyStrip, ',' ∉ x := by
  intro x hx hmem
  obtain ⟨t, ht, rfl⟩ := List.mem_map.mp hx
  exact pySplitAll_not_mem ',' args t ht (mem_pyStrip t ',' hmem)

theorem litMatch_canon (l : String) (neg : Bool) (pred args : List Char)
    (h : litMatch l.data = some (neg, pred, args)) :
    litMatch (apply_subst [] l).data =
      some (neg, pred, joinWith ',' ((pySplitAll ',' args).map pyStrip)) := by
  obtain ⟨hne, hid⟩ := litMatch_pred_facts l.data neg pred args h
  rw [apply_subst_nil_of_match l neg pred args h,
    litMatch_mkLitStr neg pred _ hne hid, map_data_map_mk_strip]

theorem litTokens_canon (args : List Char) :
    litTokens (joinWith ',' ((pySplitAll ',' args).map pyStrip)) =
      litTokens args := by
  unfold litTokens
  rw [pySplitAll_joinWith ',' _
    (by
      intro hmap
      exact pySplitAll_ne_nil ',' args (List.map_eq_nil_iff.mp hmap))
    (strip_toks_no_comma args)]
  rw [List.map_map]
  apply List.map_congr_left
  intro t _
  show String.mk (pyStrip (pyStrip t)) = String.mk (pyStrip t)
  rw [pyStrip_idem]

theorem apply_subst_nil_idem (l : String) :
    apply_subst [] (apply_subst [] l) = apply_subst [] l := by
  cases hm : litMatch l.data with
  | none =>
    have h1 : apply_subst [] l = l := by
      unfold apply_subst
      rw [hm]
    rw [h1, h1]
  | some x =>
    obtain ⟨neg, pred, args⟩ := x
    obtain ⟨hne, hid⟩ := litMatch_pred_facts l.data neg pred args hm
    rw [apply_subst_nil_of_match _ _ _ _ (litMatch_canon l neg pred args hm),
      apply_subst_nil_of_match _ _ _ _ hm]
    rw [pySplitAll_joinWith ',' _
      (by
        intro hmap
        exact pySplitAll_ne_nil ',' args (List.map_eq_nil_iff.mp hmap))
      (strip_toks_no_comma args)]
    rw [List.map_map]
    congr 1
    apply List.map_congr_left
    intro t _
    show String.mk (pyStrip (pyStrip t)) = String.mk (pyStrip t)
    rw [pyStrip_idem]

theorem groundLit_canon (l : String) (h : groundLit l = true) :
    groundLit (apply_subst [] l) = true := by
  cases hm : litMatch l.data with
  | none =>
    have h1 : apply_subst [] l = l := by
      unfold apply_subst
      rw [hm]
    rw [h1]
    exact h
  | some x =>
    obtain ⟨neg, pred, args⟩ := x
    unfold groundLit at h ⊢
    rw [hm] at h
    dsimp only at h
    rw [litMatch_canon l neg pred args hm]
    dsimp only
    rw [litTokens_canon]
    exact h

theorem unify_core_eq (l : String) :
    coreMatch (if startsNeg l then l.data.drop 1 else l.data) =
      (litMatch l.data).map (fun x => (x.2.1, x.2.2)) := by
  cases hd : l.data with
  | nil =>
    have hs : startsNeg l = false := by simp [startsNeg, hd]
    rw [hs]
    rfl
  | cons c cs =>
    by_cases hc : c = '¬'
    · subst hc
      have hs : startsNeg l = true := by simp [startsNeg, hd]
      rw [hs]
      show coreMatch cs = (litMatch ('¬' :: cs)).map (fun x => (x.2.1, x.2.2))
      show coreMatch cs =
        ((coreMatch cs).map (fun na => (true, na.1, na.2))).map
          (fun x => (x.2.1, x.2.2))
      rw [Option.map_map]
      cases coreMatch cs <;> rfl
    · have hs : startsNeg l = false := by simp [startsNeg, hd, hc]
      rw [hs]
      show coreMatch (c :: cs) = (litMatch (c :: cs)).map (fun x => (x.2.1, x.2.2))
      rw [litMatch_cons_ne c cs hc, Option.map_map]
      cases coreMatch (c :: cs) <;> rfl

theorem unifyArgs_ground :
    ∀ (pairs : List (String × String)),
      (∀ ab ∈ pairs, pyIsLower ab.1 = false ∧ pyIsLower ab.2 = false) →
      ∀ σ σ', unifyArgs pairs σ = some σ' → σ' = σ := by
  intro pairs
  induction pairs with
  | nil =>
    intro _ σ σ' h
    injection h with h
    exact h.symm
  | cons ab rest ih =>
    intro hall σ σ' h
    unfold unifyArgs at h
    obtain ⟨hl, hr⟩ := hall ab (by simp)
    by_cases heq : ab.1 = ab.2
    · rw [if_pos heq] at h
      exact ih (fun x hx => hall x (by simp [hx])) σ σ' h
    · rw [if_neg heq] at h
      simp only [hl, hr, Bool.false_eq_true, if_false] at h
      exact absurd h (by simp)

theorem unify_literals_ground (l1 l2 : String) (h1 : groundLit l1 = true)
    (h2 : groundLit l2 = true) (σ : List (String × String))
    (h : unify_literals l1 l2 = some σ) : σ = [] := by
  unfold unify_literals at h
  dsimp only at h
  rw [unify_core_eq l1, unify_core_eq l2] at h
  unfold groundLit at h1 h2
  cases hm1 : litMatch l1.data with
  | none => rw [hm1] at h; exact absurd h (by simp)
  | some x1 =>
    obtain ⟨neg1, pred1, args1⟩ := x1
    cases hm2 : litMatch l2.data with
    | none => rw [hm2] at h; exact absurd h (by simp)
    | some x2 =>
      obtain ⟨neg2, pred2, args2⟩ := x2
      rw [hm1, hm2] at h
      rw [hm1] at h1
      rw [hm2] at h2
      dsimp only at h h1 h2
      split at h
      · rename_i n1 a1 n2 a2 heq1 heq2
        simp only [Option.map_some', Option.some.injEq, Prod.mk.injEq] at heq1 heq2
        obtain ⟨he1, he2⟩ := heq1
        obtain ⟨he3, he4⟩ := heq2
        subst he1; subst he2; subst he3; subst he4
        split at h
        · exact absurd h (by simp)
        · split at h
          · exact absurd h (by simp)
          · refine unifyArgs_ground _ ?_ [] σ h
            intro ab hab
            obtain ⟨ha, hb⟩ := List.of_mem_zip hab
            constructor
            · have := List.all_eq_true.mp h1 ab.1 ha
              simpa using this
            · have := List.all_eq_true.mp h2 ab.2 hb
              simpa using this
      · exact absurd h (by simp)

theorem char_toNat_inj (a b : Char) (h : a.toNat = b.toNat) : a = b := by
  apply Char.eq_of_val_eq
  apply UInt32.eq_of_toBitVec_eq
  have h2 : a.val.toNat = b.val.toNat := h
  exact BitVec.eq_of_toNat_eq (by simpa [UInt32.toNat] using h2)

theorem strLtB_irrefl : ∀ s : List Char, strLtB s s = false := by
  intro s
  induction s with
  | nil => rfl
  | cons c cs ih =>
    unfold strLtB
    simp only [Nat.lt_irrefl, if_false]
    exact ih

theorem strLtB_trans : ∀ a b c : List Char,
    strLtB a b = true → strLtB b c = true → strLtB a c = true := by
  intro a
  induction a with
  | nil =>
    intro b c hab hbc
    cases c with
    | nil =>
      cases b with
      | nil => exact absurd hab (by simp [strLtB])
      | cons y ys => exact absurd hbc (by simp [strLtB])
    | cons z zs => rfl
  | cons x xs ih =>
    intro b c hab hbc
    cases b with
    | nil => exact absurd hab (by simp [strLtB])
    | cons y ys =>
      cases c with
      | nil => exact absurd hbc (by simp [strLtB])
      | cons z zs =>
        unfold strLtB at hab hbc ⊢
        by_cases hxy : x.toNat < y.toNat
        · by_cases hyz : y.toNat < z.toNat
          · rw [if_pos (by omega)]
          · rw [if_pos hxy] at hab
            by_cases hzy : z.toNat < y.toNat
            · rw [if_neg hyz, if_pos hzy] at hbc
              exact absurd hbc (by simp)
            · have hyz2 : y.toNat = z.toNat := by omega
              rw [if_pos (by omega)]
        · by_cases hyx : y.toNat < x.toNat
          · rw [if_neg hxy, if_pos hyx] at hab
            exact absurd hab (by simp)
          · have hxy2 : x.toNat = y.toNat := by omega
            rw [if_neg hxy, if_neg hyx] at hab
            by_cases hyz : y.toNat < z.toNat
            · rw [if_pos (by omega)]
            · by_cases hzy : z.toNat < y.toNat
              · rw [if_neg hyz, if_pos hzy] at hbc
                exact absurd hbc (by simp)
              · rw [if_neg hyz, if_neg hzy] at hbc
                rw [if_neg (by omega), if_neg (by omega)]
                exact ih ys zs hab hbc

theorem strLtB_conn : ∀ a b : List Char,
    strLtB a b = false → strLtB b a = false → a = b := by
  intro a
  induction a with
  | nil =>
    intro b hab _
    cases b with
    | nil => rfl
    | cons y ys => exact absurd hab (by simp [strLtB])
  | cons x xs ih =>
    intro b hab hba
    cases b with
    | nil => exact absurd hba (by simp [strLtB])
    | cons y ys =>
      unfold strLtB at hab hba
      by_cases hxy : x.toNat < y.toNat
      · rw [if_pos hxy] at hab
        exact absurd hab (by simp)
      · by_cases hyx : y.toNat < x.toNat
        · rw [if_pos hyx] at hba
          exact absurd hba (by simp)
        · rw [if_neg hxy, if_neg hyx] at hab
          rw [if_neg hyx, if_neg hxy] at hba
          have hc : x = y := char_toNat_inj x y (by omega)
          rw [hc, ih ys hab hba]

/-- The (non-strict) string order used to state sortedness of `pySorted`
output. -/
def StrLe (a b : String) : Prop := strLtB b.data a.data = false

/-- The strict string order; canonical clauses are strictly sorted. -/
def StrLt (a b : String) : Prop := strLtB a.data b.data = true

theorem strLe_trans {a b c : String} (h1 : StrLe a b) (h2 : StrLe b c) :
    StrLe a c := by
  unfold StrLe at h1 h2 ⊢
  cases hca : strLtB c.data a.data
  · rfl
  · cases hab : strLtB a.data b.data
    · have he : a = b := String.ext (strLtB_conn a.data b.data hab h1)
      rw [he] at hca
      rw [hca] at h2
      exact absurd h2 (by simp)
    · have hcb : strLtB c.data b.data = true :=
        strLtB_trans c.data a.data b.data hca hab
      rw [hcb] at h2
      exact absurd h2 (by simp)

theorem strLt_of_le_ne {a b : String} (h : StrLe a b) (hne : a ≠ b) :
    StrLt a b := by
  unfold StrLe at h
  unfold StrLt
  cases hab : strLtB a.data b.data
  · exact absurd (String.ext (strLtB_conn a.data b.data hab h)) hne
  · rfl

theorem strLt_irrefl (a : String) : ¬ StrLt a a := by
  unfold StrLt
  rw [strLtB_irrefl]
  simp

theorem strLt_trans {a b c : String} (h1 : StrLt a b) (h2 : StrLt b c) :
    StrLt a c := strLtB_trans a.data b.data c.data h1 h2

theorem insertSorted_perm (x : String) :
    ∀ l : List String, (insertSorted x l).Perm (x :: l) := by
  intro l
  induction l with
  | nil => exact List.Perm.refl _
  | cons y ys ih =>
    unfold insertSorted
    by_cases h : strLtB y.data x.data = true
    · rw [if_pos h]
      exact (ih.cons y).trans (List.Perm.swap x y ys)
    · rw [if_neg h]

theorem insertSorted_sorted (x : String) :
    ∀ l : List String, l.Pairwise StrLe → (insertSorted x l).Pairwise StrLe := by
  intro l
  induction l with
  | nil =>
    intro _
    exact List.pairwise_singleton _ _
  | cons y ys ih =>
    intro hp
    rw [List.pairwise_cons] at hp
    unfold insertSorted
    by_cases h : strLtB y.data x.data = true
    · rw [if_pos h]
      rw [List.pairwise_cons]
      constructor
      · intro z hz
        have hz2 := (insertSorted_perm x ys).mem_iff.mp hz
        cases List.mem_cons.mp hz2 with
        | inl he =>
          rw [he]
          unfold StrLe
          cases hxy : strLtB x.data y.data
          · rfl
          · have : strLtB y.data y.data = true :=
              strLtB_trans y.data x.data y.data h hxy
            rw [strLtB_irrefl] at this
            exact absurd this (by simp)
        | inr hm => exact hp.1 z hm
      · exact ih hp.2
    · rw [if_neg h]
      rw [List.pairwise_cons]
      constructor
      · intro z hz
        cases List.mem_cons.mp hz with
        | inl he =>
          rw [he]
          unfold StrLe
          cases hyx : strLtB y.data x.data
          · rfl
          · exact absurd hyx h
        | inr hm =>
          exact strLe_trans (by
            unfold StrLe
            cases hyx : strLtB y.data x.data
            · rfl
            · exact absurd hyx h) (hp.1 z hm)
      · exact List.pairwise_cons.mpr hp

theorem pySorted_perm (l : List String) : (pySorted l).Perm l := by
  induction l with
  | nil => exact List.Perm.refl _
  | cons x xs ih =>
    unfold pySorted at ih ⊢
    rw [List.foldr_cons]
    exact (insertSorted_perm x _).trans (ih.cons x)

theorem pySorted_sorted (l : List String) : (pySorted l).Pairwise StrLe := by
  induction l with
  | nil => exact List.Pairwise.nil
  | cons x xs ih =>
    unfold pySorted at ih ⊢
    rw [List.foldr_cons]
    exact insertSorted_sorted x _ ih

theorem pairwise_strLt_of_nodup {l : List String}
    (hs : l.Pairwise StrLe) (hn : l.Nodup) : l.Pairwise StrLt := by
  induction l with
  | nil => exact List.Pairwise.nil
  | cons x xs ih =>
    rw [List.pairwise_cons] at hs ⊢
    rw [List.nodup_cons] at hn
    refine ⟨fun z hz => strLt_of_le_ne (hs.1 z hz) ?_, ih hs.2 hn.2⟩
    intro he
    rw [he] at hn
    exact hn.1 hz

theorem sublist_of_pairwise_strLt :
    ∀ u l : List String, l.Pairwise StrLt → u.Pairwise StrLt →
      (∀ x ∈ l, x ∈ u) → l.Sublist u := by
  intro u
  induction u with
  | nil =>
    intro l _ _ hsub
    cases l with
    | nil => exact List.Sublist.refl _
    | cons x xs => exact absurd (hsub x (List.mem_cons_self x xs)) (by simp)
  | cons a as ih =>
    intro l hl hu hsub
    cases l with
    | nil => exact List.nil_sublist _
    | cons x xs =>
      rw [List.pairwise_cons] at hl hu
      by_cases hxa : x = a
      · subst hxa
        refine List.Sublist.cons₂ x (ih xs hl.2 hu.2 ?_)
        intro z hz
        have hzu := hsub z (List.mem_cons_of_mem x hz)
        cases List.mem_cons.mp hzu with
        | inl he =>
          have hlt := hl.1 z hz
          rw [he] at hlt
          exact absurd hlt (strLt_irrefl x)
        | inr hm => exact hm
      · refine List.Sublist.cons a (ih (x :: xs) (List.pairwise_cons.mpr hl) hu.2 ?_)
        intro z hz
        have hzu := hsub z hz
        cases List.mem_cons.mp hzu with
        | inl he =>
          subst he
          cases List.mem_cons.mp hz with
          | inl he2 => exact absurd he2.symm hxa
          | inr hm =>
            have h1 : StrLt x z := hl.1 z hm
            have h2 : StrLt z x := by
              have := hsub x (List.mem_cons_self x xs)
              cases List.mem_cons.mp this with
              | inl he3 => exact absurd he3 hxa
              | inr hm2 => exact hu.1 x hm2
            exact absurd (strLt_trans h1 h2) (strLt_irrefl x)
        | inr hm => exact hm

/-- A literal of the finite ground universe `U`: it occurs in `U` and has
no variable argument token. -/
def LOk (U : List String) (l : String) : Prop := l ∈ U ∧ groundLit l = true

/-- A clause admissible in the saturation database over universe `U`: all
its literals are in `U` and ground, and it is either one of the initial
clauses `inp` or strictly sorted (a canonicalized resolvent). -/
def ClOk (inp : List Clause) (U : List String) (c : Clause) : Prop :=
  (∀ l ∈ c, LOk U l) ∧ (c ∈ inp ∨ c.Pairwise StrLt)

/-- Sweep-state invariant: the clause set has no duplicates and every
clause of the set and of the new-clause list is admissible. -/
def SOk (inp : List Clause) (U : List String) (st : SweepSt) : Prop :=
  st.setC.Nodup ∧ (∀ c ∈ st.setC, ClOk inp U c) ∧ (∀ c ∈ st.newC, ClOk inp U c)

/-- Between-sweeps invariant: the clause set is admissible and every
clause of the working list has admissible literals. -/
def ROk (inp : List Clause) (U : List String) (st : RState) : Prop :=
  st.setC.Nodup ∧ (∀ c ∈ st.setC, ClOk inp U c) ∧
    (∀ c ∈ st.clausesList, ∀ l ∈ c, LOk U l)

/-- The universe is closed under canonicalization by the empty
substitution. -/
def UClosed (U : List String) : Prop := ∀ l ∈ U, apply_subst [] l ∈ U

theorem tryPair_ok_cases (a b : Clause) (lit1 lit2 : String)
    (hg1 : groundLit lit1 = true) (hg2 : groundLit lit2 = true)
    (st st' : SweepSt) (h : tryPair a b lit1 lit2 st = Except.ok st') :
    (st'.setC = st.setC ∧ st'.newC = st.newC) ∨
    ∃ nl : List String, st'.setC = st.setC ++ [pySorted nl] ∧
      st'.newC = st.newC ++ [pySorted nl] ∧ nl ≠ [] ∧ nl.Nodup ∧
      pySorted nl ∉ st.setC ∧
      ∀ l ∈ nl, ∃ l0, (l0 ∈ a ∨ l0 ∈ b) ∧ l = apply_subst [] l0 := by
  unfold tryPair at h
  by_cases hx : ((startsNeg lit1).xor (startsNeg lit2)) = true
  · rw [if_pos hx] at h
    cases hu : unify_literals lit1 lit2 with
    | none =>
      rw [hu] at h
      injection h with h
      subst h
      exact Or.inl ⟨rfl, rfl⟩
    | some σ =>
      have hσ : σ = [] := unify_literals_ground lit1 lit2 hg1 hg2 σ hu
      subst hσ
      rw [hu] at h
      dsimp only at h
      split at h
      · exact absurd h (by simp)
      · rename_i hemp
        split at h
        · rename_i hmem
          injection h with h
          subst h
          exact Or.inl ⟨rfl, rfl⟩
        · rename_i hmem
          injection h with h
          subst h
          refine Or.inr ⟨_, rfl, rfl, ?_, pyDedup_nodup _, hmem, ?_⟩
          · intro hnil
            rw [hnil] at hemp
            exact hemp rfl
          · intro l hl
            have hl2 := (pyDedup_mem _ l).mp hl
            obtain ⟨l0, hl0, he⟩ := List.mem_map.mp hl2
            have hl0k := List.mem_filter.mp hl0
            have hl0u := List.mem_append.mp hl0k.1
            refine ⟨l0, ?_, he.symm⟩
            cases hl0u with
            | inl hfa =>
              exact Or.inl ((pyDedup_mem a l0).mp (List.mem_filter.mp hfa).1)
            | inr hfb =>
              have := (List.mem_filter.mp hfb).1
              exact Or.inr ((pyDedup_mem b l0).mp (List.mem_filter.mp this).1)
  · rw [if_neg hx] at h
    injection h with h
    subst h
    exact Or.inl ⟨rfl, rfl⟩

theorem tryPair_ok (inp : List Clause) (U : List String) (hU : UClosed U)
    (a b : Clause) (lit1 lit2 : String)
    (ha : ∀ l ∈ a, LOk U l) (hb : ∀ l ∈ b, LOk U l)
    (hg1 : groundLit lit1 = true) (hg2 : groundLit lit2 = true)
    (st st' : SweepSt) (hst : SOk inp U st)
    (h : tryPair a b lit1 lit2 st = Except.ok st') :
    SOk inp U st' ∧
      st.setC.length + st'.newC.length = st'.setC.length + st.newC.length := by
  cases tryPair_ok_cases a b lit1 lit2 hg1 hg2 st st' h with
  | inl he =>
    refine ⟨⟨he.1 ▸ hst.1, he.1 ▸ hst.2.1, he.2 ▸ hst.2.2⟩, ?_⟩
    rw [he.1, he.2]
  | inr hex =>
    obtain ⟨nl, hset, hnew, hne, hnd, hnotin, hmem⟩ := hex
    have hclok : ClOk inp U (pySorted nl) := by
      constructor
      · intro l hl
        have hl2 : l ∈ nl := (pySorted_perm nl).mem_iff.mp hl
        obtain ⟨l0, hl0, he⟩ := hmem l hl2
        have hl0ok : LOk U l0 := by
          cases hl0 with
          | inl hma => exact ha l0 hma
          | inr hmb => exact hb l0 hmb
        rw [he]
        exact ⟨hU l0 hl0ok.1, groundLit_canon l0 hl0ok.2⟩
      · refine Or.inr (pairwise_strLt_of_nodup (pySorted_sorted nl) ?_)
        exact (pySorted_perm nl).nodup_iff.mpr hnd
    refine ⟨⟨?_, ?_, ?_⟩, ?_⟩
    · rw [hset]
      simp [List.nodup_append, hst.1, hnotin]
    · intro c hc
      rw [hset] at hc
      cases List.mem_append.mp hc with
      | inl hm => exact hst.2.1 c hm
      | inr hm =>
        rw [List.mem_singleton] at hm
        rw [hm]
        exact hclok
    · intro c hc
      rw [hnew] at hc
      cases List.mem_append.mp hc with
      | inl hm => exact hst.2.2 c hm
      | inr hm =>
        rw [List.mem_singleton] at hm
        rw [hm]
        exact hclok
    · rw [hset, hnew]
      simp only [List.length_append, List.length_singleton]
      omega

theorem sweepLits2_ok (inp : List Clause) (U : List String) (hU : UClosed U)
    (a b : Clause) (lit1 : String)
    (ha : ∀ l ∈ a, LOk U l) (hb : ∀ l ∈ b, LOk U l)
    (hg1 : groundLit lit1 = true) :
    ∀ (lits : List String) (st st' : SweepSt),
      (∀ l ∈ lits, groundLit l = true) → SOk inp U st →
      sweepLits2 a b lit1 lits st = Except.ok st' →
      SOk inp U st' ∧
        st.setC.length + st'.newC.length = st'.setC.length + st.newC.length := by
  intro lits
  induction lits with
  | nil =>
    intro st st' _ hst h
    injection h with h
    subst h
    exact ⟨hst, rfl⟩
  | cons l2 rest ih =>
    intro st st' hg hst h
    unfold sweepLits2 at h
    cases htp : tryPair a b lit1 l2 st with
    | error e => rw [htp] at h; exact absurd h (by simp)
    | ok st1 =>
      rw [htp] at h
      obtain ⟨h1ok, h1eq⟩ := tryPair_ok inp U hU a b lit1 l2 ha hb hg1
        (hg l2 (by simp)) st st1 hst htp
      obtain ⟨h2ok, h2eq⟩ := ih st1 st' (fun l hl => hg l (by simp [hl])) h1ok h
      exact ⟨h2ok, by omega⟩

theorem sweepLits1_ok (inp : List Clause) (U : List String) (hU : UClosed U)
    (a b : Clause) (litsB : List String)
    (ha : ∀ l ∈ a, LOk U l) (hb : ∀ l ∈ b, LOk U l)
    (hgB : ∀ l ∈ litsB, groundLit l = true) :
    ∀ (lits : List String) (st st' : SweepSt),
      (∀ l ∈ lits, groundLit l = true) → SOk inp U st →
      sweepLits1 a b litsB lits st = Except.ok st' →
      SOk inp U st' ∧
        st.setC.length + st'.newC.length = st'.setC.length + st.newC.length := by
  intro lits
  induction lits with
  | nil =>
    intro st st' _ hst h
    injection h with h
    subst h
    exact ⟨hst, rfl⟩
  | cons l1 rest ih =>
    intro st st' hg hst h
    unfold sweepLits1 at h
    cases hs2 : sweepLits2 a b l1 litsB st with
    | error e => rw [hs2] at h; exact absurd h (by simp)
    | ok st1 =>
      rw [hs2] at h
      obtain ⟨h1ok, h1eq⟩ := sweepLits2_ok inp U hU a b l1 ha hb
        (hg l1 (by simp)) litsB st st1 hgB hst hs2
      obtain ⟨h2ok, h2eq⟩ := ih st1 st' (fun l hl => hg l (by simp [hl])) h1ok h
      exact ⟨h2ok, by omega⟩

theorem sweepPair_ok (inp : List Clause) (U : List String) (hU : UClosed U)
    (a b : Clause) (ha : ∀ l ∈ a, LOk U l) (hb : ∀ l ∈ b, LOk U l)
    (st st' : SweepSt) (hst : SOk inp U st)
    (h : sweepPair a b st = Except.ok st') :
    SOk inp U st' ∧
      st.setC.length + st'.newC.length = st'.setC.length + st.newC.length := by
  unfold sweepPair at h
  exact sweepLits1_ok inp U hU a b (pyDedup b) ha hb
    (fun l hl => (hb l ((pyDedup_mem b l).mp hl)).2) (pyDedup a) st st'
    (fun l hl => (ha l ((pyDedup_mem a l).mp hl)).2) hst h

theorem sweepBs_ok (inp : List Clause) (U : List String) (hU : UClosed U)
    (a : Clause) (ha : ∀ l ∈ a, LOk U l) :
    ∀ (bs : List Clause) (st st' : SweepSt),
      (∀ c ∈ bs, ∀ l ∈ c, LOk U l) → SOk inp U st →
      sweepBs a bs st = Except.ok st' →
      SOk inp U st' ∧
        st.setC.length + st'.newC.length = st'.setC.length + st.newC.length := by
  intro bs
  induction bs with
  | nil =>
    intro st st' _ hst h
    injection h with h
    subst h
    exact ⟨hst, rfl⟩
  | cons b rest ih =>
    intro st st' hbs hst h
    unfold sweepBs at h
    cases hsp : sweepPair a b st with
    | error e => rw [hsp] at h; exact absurd h (by simp)
    | ok st1 =>
      rw [hsp] at h
      obtain ⟨h1ok, h1eq⟩ := sweepPair_ok inp U hU a b ha
        (hbs b (by simp)) st st1 hst hsp
      obtain ⟨h2ok, h2eq⟩ := ih st1 st'
        (fun c hc => hbs c (by simp [hc])) h1ok h
      exact ⟨h2ok, by omega⟩

theorem sweepTails_ok (inp : List Clause) (U : List String) (hU : UClosed U) :
    ∀ (cs : List Clause) (st st' : SweepSt),
      (∀ c ∈ cs, ∀ l ∈ c, LOk U l) → SOk inp U st →
      sweepTails cs st = Except.ok st' →
      SOk inp U st' ∧
        st.setC.length + st'.newC.length = st'.setC.length + st.newC.length := by
  intro cs
  induction cs with
  | nil =>
    intro st st' _ hst h
    injection h with h
    subst h
    exact ⟨hst, rfl⟩
  | cons a rest ih =>
    intro st st' hcs hst h
    unfold sweepTails at h
    cases hbs : sweepBs a rest st with
    | error e => rw [hbs] at h; exact absurd h (by simp)
    | ok st1 =>
      rw [hbs] at h
      obtain ⟨h1ok, h1eq⟩ := sweepBs_ok inp U hU a (hcs a (by simp)) rest
        st st1 (fun c hc => hcs c (by simp [hc])) hst hbs
      obtain ⟨h2ok, h2eq⟩ := ih st1 st'
        (fun c hc => hcs c (by simp [hc])) h1ok h
      exact ⟨h2ok, by omega⟩

theorem setC_length_le (inp : List Clause) (U : List String)
    (setC : List Clause) (hnd : setC.Nodup)
    (hok : ∀ c ∈ setC, ClOk inp U c) :
    setC.length ≤ (inp ++ (pySorted (pyDedup U)).sublists).length := by
  have hsortU : (pySorted (pyDedup U)).Pairwise StrLt :=
    pairwise_strLt_of_nodup (pySorted_sorted _)
      ((pySorted_perm _).nodup_iff.mpr (pyDedup_nodup _))
  have hsub : setC ⊆ inp ++ (pySorted (pyDedup U)).sublists := by
    intro c hc
    rw [List.mem_append]
    cases (hok c hc).2 with
    | inl hin => exact Or.inl hin
    | inr hp =>
      refine Or.inr (List.mem_sublists.mpr ?_)
      refine sublist_of_pairwise_strLt _ c hp hsortU ?_
      intro l hl
      exact (pySorted_perm _).mem_iff.mpr
        ((pyDedup_mem U l).mpr ((hok c hc).1 l hl).1)
  exact (List.subperm_of_subset hnd hsub).length_le

theorem resLoop_isSome (inp : List Clause) (U : List String) (hU : UClosed U) :
    ∀ (fuel : Nat) (st : RState), ROk inp U st →
      (inp ++ (pySorted (pyDedup U)).sublists).length + 1 ≤
        fuel + st.setC.length →
      (resLoop fuel st).isSome = true := by
  intro fuel
  induction fuel with
  | zero =>
    intro st hok hb
    exfalso
    have := setC_length_le inp U st.setC hok.1 hok.2.1
    omega
  | succ n ih =>
    intro st hok hb
    unfold resLoop
    cases hsw : sweepTails st.clausesList ⟨st.setC, [], st.log⟩ with
    | error e => rfl
    | ok sw =>
      dsimp only
      have h0 : SOk inp U ⟨st.setC, [], st.log⟩ :=
        ⟨hok.1, hok.2.1, by intro c hc; exact absurd hc (by simp)⟩
      obtain ⟨hsok, heq⟩ := sweepTails_ok inp U hU st.clausesList
        ⟨st.setC, [], st.log⟩ sw hok.2.2 h0 hsw
      by_cases hemp : sw.newC.isEmpty = true
      · rw [if_pos hemp]
        rfl
      · rw [if_neg hemp]
        apply ih
        · refine ⟨hsok.1, hsok.2.1, ?_⟩
          intro c hc
          cases List.mem_append.mp hc with
          | inl hm => exact hok.2.2 c hm
          | inr hm => exact (hsok.2.2 c hm).1
        · have hlen : 1 ≤ sw.newC.length := by
            cases hnc : sw.newC with
            | nil => rw [hnc] at hemp; exact absurd rfl hemp
            | cons x xs => simp
          simp only [List.length_nil] at heq
          show (inp ++ (pySorted (pyDedup U)).sublists).length + 1 ≤
            n + sw.setC.length
          omega

/-- C5: `dumb_resolution` terminates for every ground input.  For every
clause list all of whose literals are ground (no argument token is
classified as a variable by `islower`), some finite sweep bound already
suffices: the saturation loop either derives the empty clause or reaches
a sweep that adds no new clause, and returns a result. -/
theorem dumb_resolution_ground_terminates (clauses : List Clause)
    (h : groundClauses clauses = true) :
    ∃ fuel r, dumb_resolution clauses fuel = some r := by
  have hlits : ∀ c ∈ clauses, ∀ l ∈ c, groundLit l = true := by
    intro c hc l hl
    exact (List.all_eq_true.mp ((List.all_eq_true.mp h) c hc)) l hl
  let U : List String := clauses.flatten ++ clauses.flatten.map (apply_subst [])
  have hallg : ∀ l ∈ clauses.flatten, groundLit l = true := by
    intro l hl
    obtain ⟨c, hc, hlc⟩ := List.mem_flatten.mp hl
    exact hlits c hc l hlc
  have hUc : UClosed U := by
    intro l hl
    cases List.mem_append.mp hl with
    | inl hm =>
      exact List.mem_append.mpr (Or.inr (List.mem_map.mpr ⟨l, hm, rfl⟩))
    | inr hm =>
      obtain ⟨l0, hl0, he⟩ := List.mem_map.mp hm
      rw [← he, apply_subst_nil_idem, he]
      exact hl
  have hROk : ROk (pyDedup clauses) U
      ⟨pyDedup clauses, pyDedup clauses,
        ["Резолюция с унификацией переменных"]⟩ := by
    have hcl : ∀ c ∈ pyDedup clauses, ∀ l ∈ c, LOk U l := by
      intro c hc l hl
      have hcc := (pyDedup_mem clauses c).mp hc
      exact ⟨List.mem_append.mpr
        (Or.inl (List.mem_flatten.mpr ⟨c, hcc, hl⟩)), hlits c hcc l hl⟩
    exact ⟨pyDedup_nodup clauses,
      fun c hc => ⟨hcl c hc, Or.inl hc⟩, hcl⟩
  refine ⟨(pyDedup clauses ++ (pySorted (pyDedup U)).sublists).length + 1, ?_⟩
  have hs := resLoop_isSome (pyDedup clauses) U hUc
    ((pyDedup clauses ++ (pySorted (pyDedup U)).sublists).length + 1)
    ⟨pyDedup clauses, pyDedup clauses,
      ["Резолюция с унификацией переменных"]⟩ hROk
    (Nat.le_add_right _ _)
  exact Option.isSome_iff_exists.mp hs

/-- Witness for C5 at the concrete ground input
`[("P(A)",), ("¬P(A)",)]`. -/
theorem dumb_resolution_ground_terminates_witness :
    groundClauses [["P(A)"], ["¬P(A)"]] = true ∧
      ∃ fuel r, dumb_resolution [["P(A)"], ["¬P(A)"]] fuel = some r :=
  ⟨by decide,
    dumb_resolution_ground_terminates [["P(A)"], ["¬P(A)"]] (by decide)⟩

end NSR
